import Mathlib

/-!
Shallow embedding of isl_binary_heap.h (indirect binary heap priority queue)
and proofs about its operations.

Modelling conventions:
* an `islbh_node` is the C struct `{const void *item; size_t index;}`;
* the heap state keeps the active count `length` and the allocated slot
  array `nodes` (so `allocated` of the C struct is `nodes.length`; the C
  code updates the two together at every assignment);
* array reads `nodes[i]` are modelled by `nodeAt`, which returns a default
  slot out of allocation bounds; all executions proved about below stay in
  bounds except where the C code itself reads out of bounds (see
  `islbh_peek`);
* the C `while` loops are modelled by structural recursion on a fuel
  argument; every loop below gets a proved loop equation showing the fuel
  chosen by the wrapper never runs out, so the wrapper equals the
  unbounded loop (`islbh_batchenq`'s doubling loop can genuinely diverge,
  so it returns `Option` and keeps the fuel explicit);
* allocation failure of `realloc` is an environment event, modelled by the
  `growOk` flag: `true` means the allocation succeeds;
* a C node pointer handed to `islbh_remove` is modelled as
  `Option (Nat × Bool)`: `none` is the NULL pointer, otherwise the pair
  holds the `index` field read through the pointer and whether the pointer
  equals `&self->nodes[index]` (the identity test of the source).
-/

set_option maxHeartbeats 1000000
set_option linter.unusedSectionVars false

namespace IslBinaryHeap

/-- Source struct `islbh_node`: stored item plus recorded array position. -/
structure islbh_node (α : Type) where
  item : α
  index : Nat
deriving Repr, DecidableEq

instance {α : Type} [Inhabited α] : Inhabited (islbh_node α) := ⟨⟨default, 0⟩⟩

/-- Source struct `islbh_binary_heap`: active count `length` and the
allocated node array `nodes` (`allocated` is `nodes.length`). -/
structure islbh_binary_heap (α : Type) where
  length : Nat
  nodes : List (islbh_node α)
deriving Repr, DecidableEq

/-- Source enum `islbh_error`. -/
inductive islbh_error where
  | OK
  | BAD_ALLOC
  | NOT_EXIST
  | NULL_NODE
deriving Repr, DecidableEq

/-- Read `nodes[i]` (default slot when outside the allocation). -/
def nodeAt {α : Type} [Inhabited α] (l : List (islbh_node α)) (i : Nat) : islbh_node α :=
  (l[i]?).getD default

/-- Parent index in the implicit binary tree: `(i-1)/2` by integer division
(`(index-1) >> 1` in the source, guarded by `index > 0`). -/
def parentIdx (i : Nat) : Nat := (i - 1) / 2

/-- Source `islbh__grow`: reallocate the node array to `newalloc` slots,
preserving existing contents; fresh cells are uninitialized (default). -/
def islbh__grow {α : Type} [Inhabited α] (h : islbh_binary_heap α) (newalloc : Nat) :
    islbh_binary_heap α :=
  { h with nodes := (h.nodes ++ List.replicate (newalloc - h.nodes.length) default).take newalloc }

/-- Source `islbh__swap`: exchange slots `index1` and `index2` and rewrite
both `index` fields to their new positions. -/
def islbh__swap {α : Type} [Inhabited α] (l : List (islbh_node α)) (index1 index2 : Nat) :
    List (islbh_node α) :=
  let tmp := nodeAt l index1
  let other := nodeAt l index2
  (l.set index1 { item := other.item, index := index1 }).set index2 { item := tmp.item, index := index2 }

/-- Fueled form of the `islbh__siftup` loop: while `index > 0` and the slot
compares strictly ahead of its parent, swap with the parent and continue.
Returns the final index together with the updated array. -/
def siftupF {α : Type} [Inhabited α] (cmp : α → α → Int) :
    Nat → List (islbh_node α) → Nat → List (islbh_node α) × Nat
  | 0, l, index => (l, index)
  | fuel + 1, l, index =>
    if 0 < index ∧ cmp (nodeAt l index).item (nodeAt l (parentIdx index)).item < 0 then
      siftupF cmp fuel (islbh__swap l index (parentIdx index)) (parentIdx index)
    else
      (l, index)

/-- Source `islbh__siftup`. The fuel `index + 1` always suffices because the
index strictly decreases at every iteration (see `islbh__siftup_eq`). -/
def islbh__siftup {α : Type} [Inhabited α] (cmp : α → α → Int) (l : List (islbh_node α))
    (index : Nat) : List (islbh_node α) × Nat :=
  siftupF cmp (index + 1) l index

/-- The higher-priority child of `index` picked by both sift-down loops:
left unless a right child exists and compares strictly ahead of the left. -/
def higherChild {α : Type} [Inhabited α] (cmp : α → α → Int) (len : Nat)
    (l : List (islbh_node α)) (index : Nat) : Nat :=
  if 2 * index + 2 < len ∧ cmp (nodeAt l (2 * index + 2)).item (nodeAt l (2 * index + 1)).item < 0 then
    2 * index + 2
  else
    2 * index + 1

/-- Fueled form of the `islbh__siftdown` loop: while a left child exists,
pick the higher-priority child; stop if the current slot compares strictly
ahead of it, otherwise swap down and continue. -/
def siftdownF {α : Type} [Inhabited α] (cmp : α → α → Int) (len : Nat) :
    Nat → List (islbh_node α) → Nat → List (islbh_node α)
  | 0, l, _ => l
  | fuel + 1, l, index =>
    if 2 * index + 1 < len then
      let higher := higherChild cmp len l index
      if cmp (nodeAt l index).item (nodeAt l higher).item < 0 then l
      else siftdownF cmp len fuel (islbh__swap l index higher) higher
    else l

/-- Source `islbh__siftdown` (conditional sift-down). The fuel `len + 1`
always suffices because the index strictly increases and stays below `len`
(see `islbh__siftdown_eq`). -/
def islbh__siftdown {α : Type} [Inhabited α] (cmp : α → α → Int) (len : Nat)
    (l : List (islbh_node α)) (index : Nat) : List (islbh_node α) :=
  siftdownF cmp len (len + 1) l index

/-- Fueled form of the `islbh__siftdown_floyd` loop: while a left child
exists, swap unconditionally with the higher-priority child; at the leaf,
sift the slot back up. -/
def siftdownFloydF {α : Type} [Inhabited α] (cmp : α → α → Int) (len : Nat) :
    Nat → List (islbh_node α) → Nat → List (islbh_node α)
  | 0, l, index => (islbh__siftup cmp l index).1
  | fuel + 1, l, index =>
    if 2 * index + 1 < len then
      siftdownFloydF cmp len fuel (islbh__swap l index (higherChild cmp len l index))
        (higherChild cmp len l index)
    else (islbh__siftup cmp l index).1

/-- Source `islbh__siftdown_floyd` (extract-optimized sift-down): descend
unconditionally to a leaf, then sift up from there. Fuel as for
`islbh__siftdown` (see `islbh__siftdown_floyd_eq`). -/
def islbh__siftdown_floyd {α : Type} [Inhabited α] (cmp : α → α → Int) (len : Nat)
    (l : List (islbh_node α)) (index : Nat) : List (islbh_node α) :=
  siftdownFloydF cmp len (len + 1) l index

/-- The loop of `islbh__floyd_algorithm`: sift down at indices
`k-1, k-2, ..., 0` in that order. -/
def floydLoop {α : Type} [Inhabited α] (cmp : α → α → Int) (len : Nat) :
    Nat → List (islbh_node α) → List (islbh_node α)
  | 0, l => l
  | k + 1, l => floydLoop cmp len k (islbh__siftdown cmp len l k)

/-- Source `islbh__floyd_algorithm`: for `i = 0 .. n-1` with `n = len/2`,
sift down at `n - i - 1`; i.e. sift down every internal node from the last
to the first. -/
def islbh__floyd_algorithm {α : Type} [Inhabited α] (cmp : α → α → Int) (len : Nat)
    (l : List (islbh_node α)) : List (islbh_node α) :=
  floydLoop cmp len (len / 2) l

/-- Source `islbh_create`: zero length, `prealloc` uninitialized slots. -/
def islbh_create {α : Type} [Inhabited α] (prealloc : Nat) : islbh_binary_heap α :=
  { length := 0, nodes := List.replicate prealloc default }

/-- Source `islbh_enqueue`: grow (to `allocated * 2`) when full, place the
item at position `length`, increment `length`, sift up. Returns the final
slot index as the handle, `none` on allocation failure. -/
def islbh_enqueue {α : Type} [Inhabited α] (cmp : α → α → Int) (growOk : Bool)
    (h : islbh_binary_heap α) (item : α) : islbh_binary_heap α × Option Nat :=
  let index := h.length
  if h.nodes.length ≤ h.length then
    if growOk then
      let h1 := islbh__grow h (h.nodes.length * 2)
      let l1 := h1.nodes.set index { item := item, index := index }
      let r := islbh__siftup cmp l1 index
      ({ length := h.length + 1, nodes := r.1 }, some r.2)
    else
      (h, none)
  else
    let l1 := h.nodes.set index { item := item, index := index }
    let r := islbh__siftup cmp l1 index
    ({ length := h.length + 1, nodes := r.1 }, some r.2)

/-- Source `islbh_dequeue`: `none` when empty; when one element, clear and
return it; otherwise capture the root, swap slot 0 with the last active
slot, decrement `length`, run the extract-optimized sift-down from 0. -/
def islbh_dequeue {α : Type} [Inhabited α] (cmp : α → α → Int) (h : islbh_binary_heap α) :
    islbh_binary_heap α × Option α :=
  if h.length = 0 then (h, none)
  else if h.length = 1 then ({ h with length := 0 }, some (nodeAt h.nodes 0).item)
  else
    let item := (nodeAt h.nodes 0).item
    let len1 := h.length - 1
    let l1 := islbh__swap h.nodes 0 len1
    ({ length := len1, nodes := islbh__siftdown_floyd cmp len1 l1 0 }, some item)

/-- Source `islbh_peek`: reads `nodes[0]` unconditionally, with no check of
`length`. `none` models a read outside the allocation (zero capacity);
with a nonzero capacity but `length = 0` the returned slot content is
uninitialized garbage, not an empty indicator. -/
def islbh_peek {α : Type} (h : islbh_binary_heap α) : Option α :=
  (h.nodes[0]?).map islbh_node.item

/-- Source `islbh_update`: sift up from the handle's recorded position,
then sift down from the resulting index. -/
def islbh_update {α : Type} [Inhabited α] (cmp : α → α → Int) (h : islbh_binary_heap α)
    (pos : Nat) : islbh_binary_heap α :=
  let r := islbh__siftup cmp h.nodes pos
  { h with nodes := islbh__siftdown cmp h.length r.1 r.2 }

/-- Source `islbh_remove`: reject a NULL handle, then a handle whose
recorded position is not active or whose pointer identity fails; otherwise
swap the named slot with the last active one (unless it is the last),
decrement `length`, and run `islbh_update` on the slot now at that
position. -/
def islbh_remove {α : Type} [Inhabited α] (cmp : α → α → Int) (h : islbh_binary_heap α)
    (node : Option (Nat × Bool)) : islbh_binary_heap α × islbh_error :=
  match node with
  | none => (h, .NULL_NODE)
  | some (pos, live) =>
    if h.length ≤ pos ∨ live = false then (h, .NOT_EXIST)
    else
      let index := pos
      let last := h.length - 1
      let l1 := if index ≠ last then islbh__swap h.nodes index last else h.nodes
      let h1 : islbh_binary_heap α := { length := last, nodes := l1 }
      (islbh_update cmp h1 (nodeAt l1 index).index, .OK)

/-- The capacity-doubling loop at the head of `islbh_batchenq`:
`while (allocated < length + count) allocated *= 2;`. Returns `none` when
the fuel runs out (the loop diverges when `allocated = 0 < need`). -/
def batchDoubling : Nat → Nat → Nat → Option Nat
  | 0, allocated, need => if allocated < need then none else some allocated
  | fuel + 1, allocated, need =>
    if allocated < need then batchDoubling fuel (allocated * 2) need else some allocated

/-- The append loop of `islbh_batchenq`: place the batch items as slots at
positions `i, i+1, ...` with matching `index` fields. -/
def placeItems {α : Type} [Inhabited α] : List (islbh_node α) → Nat → List α → List (islbh_node α)
  | l, _, [] => l
  | l, i, x :: xs => placeItems (l.set i { item := x, index := i }) (i + 1) xs

/-- Source `islbh_batchenq`: compute the doubled capacity, grow once if it
increased, append all items as leaves, snapshot their slots (the optional
out array), set the new length and rebuild with Floyd's algorithm. The
outer `Option` is `none` when the doubling loop exceeds the given fuel. -/
def islbh_batchenq {α : Type} [Inhabited α] (cmp : α → α → Int) (growOk : Bool) (fuel : Nat)
    (h : islbh_binary_heap α) (items : List α) :
    Option (islbh_binary_heap α × islbh_error × List (islbh_node α)) :=
  let length := h.length
  let count := items.length
  match batchDoubling fuel h.nodes.length (length + count) with
  | none => none
  | some allocated =>
    if h.nodes.length < allocated ∧ growOk = false then some (h, .BAD_ALLOC, [])
    else
      let h1 := if h.nodes.length < allocated then islbh__grow h allocated else h
      let l2 := placeItems h1.nodes length items
      let snapshots := (List.range count).map (fun i => nodeAt l2 (length + i))
      let l3 := islbh__floyd_algorithm cmp (length + count) l2
      some ({ length := length + count, nodes := l3 }, .OK, snapshots)

/-- Enqueue a whole list one element at a time (allocation succeeding). -/
def enqueueAll {α : Type} [Inhabited α] (cmp : α → α → Int) (h : islbh_binary_heap α)
    (items : List α) : islbh_binary_heap α :=
  items.foldl (fun acc x => (islbh_enqueue cmp true acc x).1) h

/-- Repeated dequeue, at most `fuel` times, stopping at the empty signal. -/
def drainFuel {α : Type} [Inhabited α] (cmp : α → α → Int) :
    Nat → islbh_binary_heap α → List α
  | 0, _ => []
  | fuel + 1, h =>
    match islbh_dequeue cmp h with
    | (h1, some x) => x :: drainFuel cmp fuel h1
    | (_, none) => []

/-- Dequeue repeatedly until the heap reports empty (each successful
dequeue decrements `length` by one, so `length` dequeues drain it). -/
def drain {α : Type} [Inhabited α] (cmp : α → α → Int) (h : islbh_binary_heap α) : List α :=
  drainFuel cmp h.length h

/-- Position invariant: every active slot records its own array index. -/
def posOK {α : Type} [Inhabited α] (len : Nat) (l : List (islbh_node α)) : Prop :=
  ∀ i, i < len → (nodeAt l i).index = i

/-- Heap order: no active child compares strictly ahead of its parent. -/
def heapOrd {α : Type} [Inhabited α] (cmp : α → α → Int) (len : Nat)
    (l : List (islbh_node α)) : Prop :=
  ∀ i, 0 < i → i < len → 0 ≤ cmp (nodeAt l i).item (nodeAt l (parentIdx i)).item

/-- Heap order restricted to edges whose parent index is at least `b`
(used to state what Floyd's bottom-up construction has established). -/
def heapOrdFrom {α : Type} [Inhabited α] (cmp : α → α → Int) (b len : Nat)
    (l : List (islbh_node α)) : Prop :=
  ∀ i, 0 < i → i < len → b ≤ parentIdx i → 0 ≤ cmp (nodeAt l i).item (nodeAt l (parentIdx i)).item

/-- The comparator contract of the spec: a consistent total preorder,
expressed by sign antisymmetry and transitivity of the nonstrict order. -/
def IsCmp {α : Type} (cmp : α → α → Int) : Prop :=
  (∀ a b, cmp a b < 0 ↔ 0 < cmp b a) ∧
  (∀ a b c, cmp a b ≤ 0 → cmp b c ≤ 0 → cmp a c ≤ 0)

/-- The heap invariants of the spec (length in bounds, positions recorded
correctly, heap order). -/
def Valid {α : Type} [Inhabited α] (cmp : α → α → Int) (h : islbh_binary_heap α) : Prop :=
  h.length ≤ h.nodes.length ∧ posOK h.length h.nodes ∧ heapOrd cmp h.length h.nodes

/-- The items of the active slots, in array order. -/
def activeItems {α : Type} (len : Nat) (l : List (islbh_node α)) : List α :=
  (l.take len).map islbh_node.item

/-- The two per-slot invariants of the spec: every active slot records its
own index and no active child compares strictly ahead of its parent. -/
def heapInvariants {α : Type} [Inhabited α] (cmp : α → α → Int)
    (h : islbh_binary_heap α) : Prop :=
  posOK h.length h.nodes ∧ heapOrd cmp h.length h.nodes

instance {α : Type} [Inhabited α] (len : Nat) (l : List (islbh_node α)) :
    Decidable (posOK len l) :=
  inferInstanceAs (Decidable (∀ i, i < len → (nodeAt l i).index = i))

instance {α : Type} [Inhabited α] (cmp : α → α → Int) (len : Nat) (l : List (islbh_node α)) :
    Decidable (heapOrd cmp len l) :=
  decidable_of_iff
    (∀ i, i < len → 0 < i → 0 ≤ cmp (nodeAt l i).item (nodeAt l (parentIdx i)).item)
    (by unfold heapOrd
        exact ⟨fun h i h1 h2 => h i h2 h1, fun h i h2 h1 => h i h1 h2⟩)

instance {α : Type} [Inhabited α] (cmp : α → α → Int) (h : islbh_binary_heap α) :
    Decidable (Valid cmp h) :=
  inferInstanceAs (Decidable (_ ∧ _ ∧ _))

instance {α : Type} [Inhabited α] (cmp : α → α → Int) (h : islbh_binary_heap α) :
    Decidable (heapInvariants cmp h) :=
  inferInstanceAs (Decidable (_ ∧ _))

instance {α : Type} [Fintype α] (cmp : α → α → Int) : Decidable (IsCmp cmp) :=
  inferInstanceAs (Decidable ((∀ a b, cmp a b < 0 ↔ 0 < cmp b a) ∧
    (∀ a b c, cmp a b ≤ 0 → cmp b c ≤ 0 → cmp a c ≤ 0)))

section BasicLemmas

variable {α : Type} [Inhabited α]

theorem nodeAt_of_lt {l : List (islbh_node α)} {i : Nat} (h : i < l.length) :
    nodeAt l i = l[i] := by
  simp [nodeAt, List.getElem?_eq_getElem h]

theorem nodeAt_set_self {l : List (islbh_node α)} {i : Nat} {s : islbh_node α}
    (h : i < l.length) : nodeAt (l.set i s) i = s := by
  simp [nodeAt, List.getElem?_set_self h]

theorem nodeAt_set_ne {l : List (islbh_node α)} {i j : Nat} (h : i ≠ j) (s : islbh_node α) :
    nodeAt (l.set i s) j = nodeAt l j := by
  simp [nodeAt, List.getElem?_set_ne h]

theorem length_swap (l : List (islbh_node α)) (i j : Nat) :
    (islbh__swap l i j).length = l.length := by
  simp [islbh__swap]

theorem nodeAt_swap_snd {l : List (islbh_node α)} {i j : Nat} (hj : j < l.length) :
    nodeAt (islbh__swap l i j) j = ⟨(nodeAt l i).item, j⟩ := by
  have : j < (l.set i ⟨(nodeAt l j).item, i⟩).length := by simpa using hj
  simp [islbh__swap, nodeAt_set_self this]

theorem nodeAt_swap_fst {l : List (islbh_node α)} {i j : Nat} (hi : i < l.length)
    (hij : i ≠ j) : nodeAt (islbh__swap l i j) i = ⟨(nodeAt l j).item, i⟩ := by
  rw [islbh__swap]
  rw [nodeAt_set_ne (fun h => hij h.symm), nodeAt_set_self hi]

theorem nodeAt_swap_other {l : List (islbh_node α)} {i j k : Nat} (hki : k ≠ i) (hkj : k ≠ j) :
    nodeAt (islbh__swap l i j) k = nodeAt l k := by
  rw [islbh__swap]
  rw [nodeAt_set_ne (fun h => hkj h.symm), nodeAt_set_ne (fun h => hki h.symm)]

theorem item_swap_fst {l : List (islbh_node α)} {i j : Nat} (hi : i < l.length)
    (hij : i ≠ j) : (nodeAt (islbh__swap l i j) i).item = (nodeAt l j).item := by
  rw [nodeAt_swap_fst hi hij]

theorem item_swap_snd {l : List (islbh_node α)} {i j : Nat} (hj : j < l.length) :
    (nodeAt (islbh__swap l i j) j).item = (nodeAt l i).item := by
  rw [nodeAt_swap_snd hj]

theorem parentIdx_lt {i : Nat} (h : 0 < i) : parentIdx i < i := by
  simp only [parentIdx]; omega

theorem parentIdx_zero : parentIdx 0 = 0 := rfl

theorem child_lower {j : Nat} (h : 0 < j) : 2 * parentIdx j + 1 ≤ j := by
  simp only [parentIdx]; omega

theorem child_upper (j : Nat) : j ≤ 2 * parentIdx j + 2 := by
  simp only [parentIdx]; omega

theorem parentIdx_child_left (i : Nat) : parentIdx (2 * i + 1) = i := by
  simp only [parentIdx]; omega

theorem parentIdx_child_right (i : Nat) : parentIdx (2 * i + 2) = i := by
  simp only [parentIdx]; omega

theorem child_cases {j i : Nat} (h : parentIdx j = i) (hj : 0 < j) :
    j = 2 * i + 1 ∨ j = 2 * i + 2 := by
  simp only [parentIdx] at h; omega

theorem posOK_swap {len : Nat} {l : List (islbh_node α)} {i j : Nat} (hp : posOK len l)
    (hi : i < l.length) (hj : j < l.length) (hij : i ≠ j) :
    posOK len (islbh__swap l i j) := by
  intro k hk
  rcases eq_or_ne k i with rfl | hki
  · rw [nodeAt_swap_fst hi hij]
  · rcases eq_or_ne k j with rfl | hkj
    · rw [nodeAt_swap_snd hj]
    · rw [nodeAt_swap_other hki hkj]; exact hp k hk

theorem cons_set_perm {β : Type} (x : β) :
    ∀ (xs : List β) (m : Nat) (hm : m < xs.length), List.Perm (xs[m] :: xs.set m x) (x :: xs)
  | y :: ys, 0, _ => by simpa using List.Perm.swap x y ys
  | y :: ys, m + 1, hm => by
    have hm' : m < ys.length := by simpa using hm
    have h1 : List.Perm (ys[m] :: y :: ys.set m x) (y :: ys[m] :: ys.set m x) :=
      List.Perm.swap y (ys[m]) _
    have h2 : List.Perm (ys[m] :: ys.set m x) (x :: ys) := cons_set_perm x ys m hm'
    have h3 : List.Perm (y :: ys[m] :: ys.set m x) (y :: x :: ys) := h2.cons y
    have h4 : List.Perm (y :: x :: ys) (x :: y :: ys) := List.Perm.swap x y ys
    simpa using (h1.trans h3).trans h4

theorem set_set_perm {β : Type} :
    ∀ (L : List β) (i j : Nat) (hi : i < L.length) (hj : j < L.length),
      List.Perm ((L.set i L[j]).set j L[i]) L
  | x :: xs, 0, 0, _, _ => by simp
  | x :: xs, 0, j + 1, hi, hj => by
    have hj' : j < xs.length := by simpa using hj
    have : ((x :: xs).set 0 ((x :: xs)[j + 1])).set (j + 1) ((x :: xs)[0]) =
        xs[j] :: xs.set j x := by simp
    rw [this]
    exact cons_set_perm x xs j hj'
  | x :: xs, i + 1, 0, hi, hj => by
    have hi' : i < xs.length := by simpa using hi
    have : ((x :: xs).set (i + 1) ((x :: xs)[0])).set 0 ((x :: xs)[i + 1]) =
        xs[i] :: xs.set i x := by simp
    rw [this]
    exact cons_set_perm x xs i hi'
  | x :: xs, i + 1, j + 1, hi, hj => by
    have hi' : i < xs.length := by simpa using hi
    have hj' : j < xs.length := by simpa using hj
    have : ((x :: xs).set (i + 1) ((x :: xs)[j + 1])).set (j + 1) ((x :: xs)[i + 1]) =
        x :: ((xs.set i xs[j]).set j xs[i]) := by simp
    rw [this]
    exact (set_set_perm xs i j hi' hj').cons x

theorem activeItems_swap_perm {len : Nat} {l : List (islbh_node α)} {i j : Nat}
    (hlen : len ≤ l.length) (hi : i < len) (hj : j < len) :
    List.Perm (activeItems len (islbh__swap l i j)) (activeItems len l) := by
  have hi' : i < l.length := lt_of_lt_of_le hi hlen
  have hj' : j < l.length := lt_of_lt_of_le hj hlen
  have hit : i < (l.take len).length := by simp [List.length_take]; omega
  have hjt : j < (l.take len).length := by simp [List.length_take]; omega
  have htake : (islbh__swap l i j).take len =
      ((l.take len).set i ⟨(nodeAt l j).item, i⟩).set j ⟨(nodeAt l i).item, j⟩ := by
    simp [islbh__swap, List.set_take]
  have hmap : activeItems len (islbh__swap l i j) =
      (((l.take len).map islbh_node.item).set i (nodeAt l j).item).set j (nodeAt l i).item := by
    simp [activeItems, htake, List.map_set]
  have hit2 : i < ((l.take len).map islbh_node.item).length := by simpa using hit
  have hjt2 : j < ((l.take len).map islbh_node.item).length := by simpa using hjt
  have hjm : ((l.take len).map islbh_node.item)[j] = (nodeAt l j).item := by
    simp [List.getElem_take, nodeAt_of_lt hj']
  have him : ((l.take len).map islbh_node.item)[i] = (nodeAt l i).item := by
    simp [List.getElem_take, nodeAt_of_lt hi']
  rw [hmap, activeItems, ← hjm, ← him]
  exact set_set_perm _ i j hit2 hjt2

end BasicLemmas

section CmpLemmas

variable {α : Type} {cmp : α → α → Int}

theorem IsCmp.le_flip (hc : IsCmp cmp) {a b : α} : 0 ≤ cmp a b ↔ cmp b a ≤ 0 := by
  constructor
  · intro h
    by_contra hb
    have : 0 < cmp b a := by omega
    exact absurd ((hc.1 a b).mpr this) (by omega)
  · intro h
    by_contra hb
    have : cmp a b < 0 := by omega
    have := (hc.1 a b).mp this
    omega

theorem IsCmp.lt_of_lt_of_le (hc : IsCmp cmp) {a b c : α}
    (h1 : cmp a b < 0) (h2 : 0 ≤ cmp c b) : cmp a c < 0 := by
  by_contra h
  have hca : cmp c a ≤ 0 := hc.le_flip.mp (by omega)
  have hbc : cmp b c ≤ 0 := hc.le_flip.mp h2
  have hba : cmp b a ≤ 0 := hc.2 b c a hbc hca
  have := (hc.1 a b).mp h1
  omega

theorem IsCmp.lt_of_le_of_lt (hc : IsCmp cmp) {a b c : α}
    (h1 : cmp a b ≤ 0) (h2 : cmp b c < 0) : cmp a c < 0 := by
  by_contra h
  have hca : cmp c a ≤ 0 := hc.le_flip.mp (by omega)
  have hcb : cmp c b ≤ 0 := hc.2 c a b hca h1
  have := (hc.1 b c).mp h2
  omega

theorem IsCmp.ge_trans (hc : IsCmp cmp) {a b c : α}
    (h1 : 0 ≤ cmp a b) (h2 : 0 ≤ cmp b c) : 0 ≤ cmp a c := by
  have hba : cmp b a ≤ 0 := hc.le_flip.mp h1
  have hcb : cmp c b ≤ 0 := hc.le_flip.mp h2
  exact hc.le_flip.mpr (hc.2 c b a hcb hba)

theorem IsCmp.ge_of_lt (hc : IsCmp cmp) {a b : α} (h : cmp a b < 0) : 0 ≤ cmp b a := by
  have := (hc.1 a b).mp h
  omega

end CmpLemmas

section LoopEquations

variable {α : Type} [Inhabited α] (cmp : α → α → Int)

theorem siftupF_fuel : ∀ (fuel : Nat) (l : List (islbh_node α)) (index : Nat),
    index + 1 ≤ fuel → siftupF cmp fuel l index = islbh__siftup cmp l index
  | 0, _, index, h => absurd h (by omega)
  | fuel + 1, l, index, h => by
    rw [islbh__siftup, siftupF, siftupF]
    by_cases hcond : 0 < index ∧ cmp (nodeAt l index).item (nodeAt l (parentIdx index)).item < 0
    · simp only [if_pos hcond]
      have hp : parentIdx index < index := by
        have := hcond.1
        simp only [parentIdx]
        omega
      rw [siftupF_fuel fuel _ (parentIdx index) (by omega),
        siftupF_fuel index _ (parentIdx index) (by omega)]
    · simp only [if_neg hcond]

/-- Loop equation for `islbh__siftup`: the fueled wrapper satisfies the
unbounded recurrence of the C loop. -/
theorem islbh__siftup_eq (l : List (islbh_node α)) (index : Nat) :
    islbh__siftup cmp l index =
      if 0 < index ∧ cmp (nodeAt l index).item (nodeAt l (parentIdx index)).item < 0 then
        islbh__siftup cmp (islbh__swap l index (parentIdx index)) (parentIdx index)
      else (l, index) := by
  rw [islbh__siftup, siftupF]
  by_cases hcond : 0 < index ∧ cmp (nodeAt l index).item (nodeAt l (parentIdx index)).item < 0
  · simp only [if_pos hcond]
    have hp : parentIdx index < index := by
      have := hcond.1
      simp only [parentIdx]
      omega
    exact siftupF_fuel cmp index _ (parentIdx index) (by omega)
  · simp only [if_neg hcond]

theorem higherChild_gt (len : Nat) (l : List (islbh_node α)) (index : Nat) :
    index < higherChild cmp len l index := by
  rw [higherChild]
  split <;> omega

theorem higherChild_lt {len : Nat} {l : List (islbh_node α)} {index : Nat}
    (h : 2 * index + 1 < len) : higherChild cmp len l index < len := by
  rw [higherChild]
  split
  · next hc => exact hc.1
  · exact h

theorem siftdownF_fuel (len : Nat) :
    ∀ (f1 f2 : Nat) (l : List (islbh_node α)) (index : Nat),
      len - index ≤ f1 → len - index ≤ f2 →
      siftdownF cmp len f1 l index = siftdownF cmp len f2 l index
  | 0, f2, l, index, h1, h2 => by
    have hlen : len ≤ index := by omega
    cases f2 with
    | zero => rfl
    | succ f2 =>
      rw [siftdownF, siftdownF]
      rw [if_neg (by omega)]
  | f1 + 1, 0, l, index, h1, h2 => by
    have hlen : len ≤ index := by omega
    rw [siftdownF, siftdownF]
    rw [if_neg (by omega)]
  | f1 + 1, f2 + 1, l, index, h1, h2 => by
    rw [siftdownF, siftdownF]
    by_cases hl : 2 * index + 1 < len
    · simp only [if_pos hl]
      by_cases hstop : cmp (nodeAt l index).item (nodeAt l (higherChild cmp len l index)).item < 0
      · simp only [if_pos hstop]
      · simp only [if_neg hstop]
        have hgt := higherChild_gt cmp len l index
        have hlt := higherChild_lt cmp (l := l) hl
        exact siftdownF_fuel len f1 f2 _ (higherChild cmp len l index) (by omega) (by omega)
    · simp only [if_neg hl]

/-- Loop equation for `islbh__siftdown`. -/
theorem islbh__siftdown_eq (len : Nat) (l : List (islbh_node α)) (index : Nat) :
    islbh__siftdown cmp len l index =
      if 2 * index + 1 < len then
        if cmp (nodeAt l index).item (nodeAt l (higherChild cmp len l index)).item < 0 then l
        else islbh__siftdown cmp len (islbh__swap l index (higherChild cmp len l index))
          (higherChild cmp len l index)
      else l := by
  rw [islbh__siftdown, siftdownF]
  by_cases hl : 2 * index + 1 < len
  · simp only [if_pos hl]
    by_cases hstop : cmp (nodeAt l index).item (nodeAt l (higherChild cmp len l index)).item < 0
    · simp only [if_pos hstop]
    · simp only [if_neg hstop]
      rw [islbh__siftdown]
      exact siftdownF_fuel cmp len len (len + 1) _ _ (by omega) (by omega)
  · simp only [if_neg hl]

theorem siftdownFloydF_fuel (len : Nat) :
    ∀ (f1 f2 : Nat) (l : List (islbh_node α)) (index : Nat),
      len - index ≤ f1 → len - index ≤ f2 →
      siftdownFloydF cmp len f1 l index = siftdownFloydF cmp len f2 l index
  | 0, f2, l, index, h1, h2 => by
    have hlen : len ≤ index := by omega
    cases f2 with
    | zero => rfl
    | succ f2 =>
      rw [siftdownFloydF, siftdownFloydF]
      rw [if_neg (by omega)]
  | f1 + 1, 0, l, index, h1, h2 => by
    have hlen : len ≤ index := by omega
    rw [siftdownFloydF, siftdownFloydF]
    rw [if_neg (by omega)]
  | f1 + 1, f2 + 1, l, index, h1, h2 => by
    rw [siftdownFloydF, siftdownFloydF]
    by_cases hl : 2 * index + 1 < len
    · simp only [if_pos hl]
      have hgt := higherChild_gt cmp len l index
      have hlt := higherChild_lt cmp (l := l) hl
      exact siftdownFloydF_fuel len f1 f2 _ (higherChild cmp len l index) (by omega) (by omega)
    · simp only [if_neg hl]

/-- Loop equation for `islbh__siftdown_floyd`. -/
theorem islbh__siftdown_floyd_eq (len : Nat) (l : List (islbh_node α)) (index : Nat) :
    islbh__siftdown_floyd cmp len l index =
      if 2 * index + 1 < len then
        islbh__siftdown_floyd cmp len (islbh__swap l index (higherChild cmp len l index))
          (higherChild cmp len l index)
      else (islbh__siftup cmp l index).1 := by
  rw [islbh__siftdown_floyd, siftdownFloydF]
  by_cases hl : 2 * index + 1 < len
  · simp only [if_pos hl]
    rw [islbh__siftdown_floyd]
    exact siftdownFloydF_fuel cmp len len (len + 1) _ _ (by omega) (by omega)
  · simp only [if_neg hl]

end LoopEquations

section SiftupSpec

variable {α : Type} [Inhabited α] {cmp : α → α → Int}

/-- Correctness of `islbh__siftup`: on an array whose heap order can fail
only at the edge from `i` to its parent, and whose children of `i` already
dominate the parent of `i`, sifting up restores full heap order, keeps the
positions recorded correctly, and permutes the active items. -/
theorem siftup_spec (hc : IsCmp cmp) {len : Nat} (i : Nat) :
    ∀ (l : List (islbh_node α)),
      len ≤ l.length → i < len → posOK len l →
      (∀ j, 0 < j → j < len → j ≠ i →
        0 ≤ cmp (nodeAt l j).item (nodeAt l (parentIdx j)).item) →
      (0 < i → ∀ ch, ch < len → parentIdx ch = i →
        0 ≤ cmp (nodeAt l ch).item (nodeAt l (parentIdx i)).item) →
      (islbh__siftup cmp l i).1.length = l.length ∧
      posOK len (islbh__siftup cmp l i).1 ∧
      heapOrd cmp len (islbh__siftup cmp l i).1 ∧
      List.Perm (activeItems len (islbh__siftup cmp l i).1) (activeItems len l) ∧
      (islbh__siftup cmp l i).2 ≤ i := by
  induction i using Nat.strong_induction_on with
  | _ i IH =>
    intro l hlen hi hpos hinv hgp
    rw [islbh__siftup_eq]
    by_cases hcond : 0 < i ∧ cmp (nodeAt l i).item (nodeAt l (parentIdx i)).item < 0
    · simp only [if_pos hcond]
      obtain ⟨hipos, hlt⟩ := hcond
      have hp : parentIdx i < i := parentIdx_lt hipos
      have hpl : parentIdx i < len := lt_trans hp hi
      have hiL : i < l.length := lt_of_lt_of_le hi hlen
      have hpL : parentIdx i < l.length := lt_of_lt_of_le hpl hlen
      have hne : i ≠ parentIdx i := Nat.ne_of_gt hp
      have hswap_i : nodeAt (islbh__swap l i (parentIdx i)) i =
          ⟨(nodeAt l (parentIdx i)).item, i⟩ := nodeAt_swap_fst hiL hne
      have hswap_p : nodeAt (islbh__swap l i (parentIdx i)) (parentIdx i) =
          ⟨(nodeAt l i).item, parentIdx i⟩ := nodeAt_swap_snd hpL
      have hswap_o : ∀ k, k ≠ i → k ≠ parentIdx i →
          nodeAt (islbh__swap l i (parentIdx i)) k = nodeAt l k :=
        fun k h1 h2 => nodeAt_swap_other h1 h2
      have hinv' : ∀ j, 0 < j → j < len → j ≠ parentIdx i →
          0 ≤ cmp (nodeAt (islbh__swap l i (parentIdx i)) j).item
            (nodeAt (islbh__swap l i (parentIdx i)) (parentIdx j)).item := by
        intro j hj0 hjlen hjp
        rcases eq_or_ne j i with rfl | hji
        · rw [item_swap_fst hiL hne, item_swap_snd hpL]
          exact hc.ge_of_lt hlt
        · have hjne_i : j ≠ i := hji
          rw [hswap_o j hjne_i hjp]
          rcases eq_or_ne (parentIdx j) i with hpj | hpj
          · rw [hpj, item_swap_fst hiL hne]
            exact hgp hipos j hjlen hpj
          · rcases eq_or_ne (parentIdx j) (parentIdx i) with hpp | hpp
            · rw [hpp, item_swap_snd hpL]
              have hold : 0 ≤ cmp (nodeAt l j).item (nodeAt l (parentIdx j)).item :=
                hinv j hj0 hjlen hjne_i
              rw [hpp] at hold
              by_contra hneg
              have hjx : cmp (nodeAt l j).item (nodeAt l i).item < 0 := by omega
              have : cmp (nodeAt l j).item (nodeAt l (parentIdx i)).item < 0 :=
                hc.lt_of_le_of_lt (le_of_lt hjx) hlt
              omega
            · rw [hswap_o (parentIdx j) hpj hpp]
              exact hinv j hj0 hjlen hjne_i
      have hgp' : 0 < parentIdx i → ∀ ch, ch < len → parentIdx ch = parentIdx i →
          0 ≤ cmp (nodeAt (islbh__swap l i (parentIdx i)) ch).item
            (nodeAt (islbh__swap l i (parentIdx i)) (parentIdx (parentIdx i))).item := by
        intro hppos ch hchlen hchp
        have hpp_lt : parentIdx (parentIdx i) < parentIdx i := parentIdx_lt hppos
        have hppne_i : parentIdx (parentIdx i) ≠ i := by omega
        have hppne_p : parentIdx (parentIdx i) ≠ parentIdx i := Nat.ne_of_lt hpp_lt
        rw [hswap_o _ hppne_i hppne_p]
        have hedge_p : 0 ≤ cmp (nodeAt l (parentIdx i)).item
            (nodeAt l (parentIdx (parentIdx i))).item :=
          hinv (parentIdx i) hppos hpl (Nat.ne_of_lt hp)
        rcases eq_or_ne ch i with rfl | hchi
        · rw [item_swap_fst hiL hne]
          exact hedge_p
        · have hchne_p : ch ≠ parentIdx i := by
            intro h
            rw [h] at hchp
            omega
          rw [hswap_o ch hchi hchne_p]
          have hedge_ch : 0 ≤ cmp (nodeAt l ch).item (nodeAt l (parentIdx ch)).item := by
            have hch0 : 0 < ch := by
              by_contra hz
              have hchz : ch = 0 := by omega
              rw [hchz, parentIdx_zero] at hchp
              omega
            exact hinv ch hch0 hchlen hchi
          rw [hchp] at hedge_ch
          exact hc.ge_trans hedge_ch hedge_p
      have hres := IH (parentIdx i) hp (islbh__swap l i (parentIdx i))
        (by rw [length_swap]; exact hlen) hpl
        (posOK_swap hpos hiL hpL hne) hinv' hgp'
      refine ⟨?_, hres.2.1, hres.2.2.1, ?_, ?_⟩
      · rw [hres.1, length_swap]
      · exact hres.2.2.2.1.trans (activeItems_swap_perm hlen hi hpl)
      · exact le_trans hres.2.2.2.2 (le_of_lt hp)
    · simp only [if_neg hcond]
      have hord : heapOrd cmp len l := by
        intro j hj0 hjlen
        rcases eq_or_ne j i with rfl | hji
        · rcases Decidable.not_and_iff_or_not.mp hcond with h | h
          · omega
          · omega
        · exact hinv j hj0 hjlen hji
      exact ⟨by simp, hpos, hord, List.Perm.refl _, by simp⟩

end SiftupSpec

section SiftdownSpec

variable {α : Type} [Inhabited α] {cmp : α → α → Int}

theorem higherChild_parent (cmp : α → α → Int) (len : Nat) (l : List (islbh_node α)) (i : Nat) :
    parentIdx (higherChild cmp len l i) = i := by
  rw [higherChild]
  split
  · exact parentIdx_child_right i
  · exact parentIdx_child_left i

theorem higherChild_cases (cmp : α → α → Int) (len : Nat) (l : List (islbh_node α)) (i : Nat) :
    (higherChild cmp len l i = 2 * i + 2 ∧ 2 * i + 2 < len ∧
      cmp (nodeAt l (2 * i + 2)).item (nodeAt l (2 * i + 1)).item < 0) ∨
    (higherChild cmp len l i = 2 * i + 1 ∧
      (2 * i + 2 < len → 0 ≤ cmp (nodeAt l (2 * i + 2)).item (nodeAt l (2 * i + 1)).item)) := by
  rw [higherChild]
  by_cases hcond : 2 * i + 2 < len ∧
      cmp (nodeAt l (2 * i + 2)).item (nodeAt l (2 * i + 1)).item < 0
  · rw [if_pos hcond]
    exact Or.inl ⟨rfl, hcond.1, hcond.2⟩
  · rw [if_neg hcond]
    refine Or.inr ⟨rfl, fun hlt => ?_⟩
    rcases Decidable.not_and_iff_or_not.mp hcond with h | h
    · exact absurd hlt h
    · omega

/-- Correctness of `islbh__siftdown`, localized to heap edges whose parent
index is at least `b`: if those edges hold everywhere except below `i`,
and the children of `i` dominate the parent of `i` (when that edge is in
range), then after the sift-down all edges with parent index at least `b`
hold. Positions stay recorded correctly and the active items are permuted. -/
theorem siftdown_spec (hc : IsCmp cmp) {len b : Nat} :
    ∀ (d i : Nat) (l : List (islbh_node α)),
      len - i ≤ d →
      len ≤ l.length → b ≤ i → posOK len l →
      (∀ j, 0 < j → j < len → b ≤ parentIdx j → parentIdx j ≠ i →
        0 ≤ cmp (nodeAt l j).item (nodeAt l (parentIdx j)).item) →
      ((b ≤ parentIdx i ∧ 0 < i) → ∀ ch, ch < len → parentIdx ch = i →
        0 ≤ cmp (nodeAt l ch).item (nodeAt l (parentIdx i)).item) →
      (islbh__siftdown cmp len l i).length = l.length ∧
      posOK len (islbh__siftdown cmp len l i) ∧
      (∀ j, 0 < j → j < len → b ≤ parentIdx j →
        0 ≤ cmp (nodeAt (islbh__siftdown cmp len l i) j).item
          (nodeAt (islbh__siftdown cmp len l i) (parentIdx j)).item) ∧
      List.Perm (activeItems len (islbh__siftdown cmp len l i)) (activeItems len l) := by
  intro d
  induction d with
  | zero =>
    intro i l hd hlen hbi hpos hinv hgp
    rw [islbh__siftdown_eq, if_neg (by omega)]
    refine ⟨by trivial, hpos, ?_, List.Perm.refl _⟩
    intro j hj0 hjlen hbj
    rcases eq_or_ne (parentIdx j) i with hpj | hpj
    · have := child_lower hj0
      omega
    · exact hinv j hj0 hjlen hbj hpj
  | succ dd IH =>
    intro i l hd hlen hbi hpos hinv hgp
    rw [islbh__siftdown_eq]
    by_cases hl : 2 * i + 1 < len
    · simp only [if_pos hl]
      have hg_parent : parentIdx (higherChild cmp len l i) = i := higherChild_parent cmp len l i
      have hg_gt : i < higherChild cmp len l i := higherChild_gt cmp len l i
      have hg_lt : higherChild cmp len l i < len := higherChild_lt cmp hl
      have hiL : i < l.length := by omega
      have hgL : higherChild cmp len l i < l.length := by omega
      have hne : i ≠ higherChild cmp len l i := by omega
      by_cases hstop : cmp (nodeAt l i).item (nodeAt l (higherChild cmp len l i)).item < 0
      · simp only [if_pos hstop]
        refine ⟨by trivial, hpos, ?_, List.Perm.refl _⟩
        intro j hj0 hjlen hbj
        rcases eq_or_ne (parentIdx j) i with hpj | hpj
        · rw [hpj]
          rcases eq_or_ne j (higherChild cmp len l i) with hjg | hjg
          · rw [hjg]
            exact hc.ge_of_lt hstop
          · rcases higherChild_cases cmp len l i with ⟨he, hlt2, hcmp⟩ | ⟨he, hcmp⟩
            · have hj1 : j = 2 * i + 1 := by
                rcases child_cases hpj hj0 with h | h
                · exact h
                · exact absurd (h.trans he.symm) hjg
              by_contra hneg
              have hxj : cmp (nodeAt l i).item (nodeAt l j).item < 0 := by
                rw [hj1]
                rw [he] at hstop
                exact hc.lt_of_le_of_lt (le_of_lt hstop) hcmp
              have := (hc.1 (nodeAt l i).item (nodeAt l j).item).mp hxj
              omega
            · have hj2 : j = 2 * i + 2 := by
                rcases child_cases hpj hj0 with h | h
                · exact absurd (h.trans he.symm) hjg
                · exact h
              by_contra hneg
              have hjx : cmp (nodeAt l j).item (nodeAt l i).item < 0 := by omega
              have hjh : cmp (nodeAt l j).item (nodeAt l (higherChild cmp len l i)).item < 0 :=
                hc.lt_of_le_of_lt (le_of_lt hjx) hstop
              rw [hj2, he] at hjh
              have := hcmp (by omega)
              omega
        · exact hinv j hj0 hjlen hbj hpj
      · simp only [if_neg hstop]
        have hxc : 0 ≤ cmp (nodeAt l i).item (nodeAt l (higherChild cmp len l i)).item := by
          omega
        have hswap_i : (nodeAt (islbh__swap l i (higherChild cmp len l i)) i).item =
            (nodeAt l (higherChild cmp len l i)).item := item_swap_fst hiL hne
        have hswap_g : (nodeAt (islbh__swap l i (higherChild cmp len l i))
            (higherChild cmp len l i)).item = (nodeAt l i).item := item_swap_snd hgL
        have hswap_o : ∀ k, k ≠ i → k ≠ higherChild cmp len l i →
            nodeAt (islbh__swap l i (higherChild cmp len l i)) k = nodeAt l k :=
          fun k h1 h2 => nodeAt_swap_other h1 h2
        have hinv2 : ∀ j, 0 < j → j < len → b ≤ parentIdx j →
            parentIdx j ≠ higherChild cmp len l i →
            0 ≤ cmp (nodeAt (islbh__swap l i (higherChild cmp len l i)) j).item
              (nodeAt (islbh__swap l i (higherChild cmp len l i)) (parentIdx j)).item := by
          intro j hj0 hjlen hbj hpjg
          rcases eq_or_ne j i with hji | hji
          · subst hji
            have hpj_lt : parentIdx j < j := parentIdx_lt hj0
            rw [hswap_i, hswap_o (parentIdx j) (by omega) hpjg]
            exact hgp ⟨hbj, hj0⟩ (higherChild cmp len l j) hg_lt hg_parent
          · rcases eq_or_ne j (higherChild cmp len l i) with hjg | hjg
            · subst hjg
              rw [hswap_g, hg_parent, hswap_i]
              exact hxc
            · rw [hswap_o j hji hjg]
              rcases eq_or_ne (parentIdx j) i with hpj | hpj
              · rw [hpj, hswap_i]
                rcases child_cases hpj hj0 with hj1 | hj2
                · rcases higherChild_cases cmp len l i with ⟨he, hlt2, hcmp⟩ | ⟨he, hcmp⟩
                  · rw [hj1, he]
                    exact hc.ge_of_lt hcmp
                  · exact absurd (hj1.trans he.symm) hjg
                · rcases higherChild_cases cmp len l i with ⟨he, hlt2, hcmp⟩ | ⟨he, hcmp⟩
                  · exact absurd (hj2.trans he.symm) hjg
                  · rw [hj2, he]
                    exact hcmp (by omega)
              · rw [hswap_o (parentIdx j) hpj hpjg]
                exact hinv j hj0 hjlen hbj hpj
        have hgp2 : (b ≤ parentIdx (higherChild cmp len l i) ∧ 0 < higherChild cmp len l i) →
            ∀ ch, ch < len → parentIdx ch = higherChild cmp len l i →
            0 ≤ cmp (nodeAt (islbh__swap l i (higherChild cmp len l i)) ch).item
              (nodeAt (islbh__swap l i (higherChild cmp len l i))
                (parentIdx (higherChild cmp len l i))).item := by
          intro _ ch hchlen hchp
          have hch0 : 0 < ch := by
            by_contra hz
            have hchz : ch = 0 := by omega
            rw [hchz, parentIdx_zero] at hchp
            omega
          have hch_gt : higherChild cmp len l i < ch := by
            have := child_lower (j := ch) hch0
            omega
          rw [hg_parent, hswap_i, hswap_o ch (by omega) (by omega)]
          have hh := hinv ch (by omega) hchlen (by rw [hchp]; omega) (by rw [hchp]; omega)
          rw [hchp] at hh
          exact hh
        have hres := IH (higherChild cmp len l i) (islbh__swap l i (higherChild cmp len l i))
          (by omega) (by rw [length_swap]; omega) (by omega)
          (posOK_swap hpos hiL hgL hne) hinv2 hgp2
        refine ⟨?_, hres.2.1, hres.2.2.1, ?_⟩
        · rw [hres.1, length_swap]
        · exact hres.2.2.2.trans (activeItems_swap_perm hlen (by omega) hg_lt)
    · simp only [if_neg hl]
      refine ⟨by trivial, hpos, ?_, List.Perm.refl _⟩
      intro j hj0 hjlen hbj
      rcases eq_or_ne (parentIdx j) i with hpj | hpj
      · have := child_lower hj0
        omega
      · exact hinv j hj0 hjlen hbj hpj

end SiftdownSpec

section FloydSpec

variable {α : Type} [Inhabited α] {cmp : α → α → Int}

theorem floydLoop_spec (hc : IsCmp cmp) {len : Nat} :
    ∀ (k : Nat) (l : List (islbh_node α)),
      k ≤ len / 2 →
      len ≤ l.length → posOK len l →
      (∀ j, 0 < j → j < len → k ≤ parentIdx j →
        0 ≤ cmp (nodeAt l j).item (nodeAt l (parentIdx j)).item) →
      (floydLoop cmp len k l).length = l.length ∧
      posOK len (floydLoop cmp len k l) ∧
      heapOrd cmp len (floydLoop cmp len k l) ∧
      List.Perm (activeItems len (floydLoop cmp len k l)) (activeItems len l) := by
  intro k
  induction k with
  | zero =>
    intro l hk hlen hpos hinv
    exact ⟨rfl, hpos, fun j hj0 hjlen => hinv j hj0 hjlen (Nat.zero_le _), List.Perm.refl _⟩
  | succ k IH =>
    intro l hk hlen hpos hinv
    have hklen : k < len := by
      have : len / 2 ≤ len := Nat.div_le_self len 2
      omega
    have hsd := siftdown_spec (b := k) hc (len - k) k l (le_refl _) hlen (le_refl k) hpos
      (fun j hj0 hjlen hbj hne => hinv j hj0 hjlen (by omega))
      (fun hx => absurd hx.1 (by have := parentIdx_lt hx.2; omega))
    have hstep : floydLoop cmp len (k + 1) l =
        floydLoop cmp len k (islbh__siftdown cmp len l k) := rfl
    rw [hstep]
    have hres := IH (islbh__siftdown cmp len l k) (by omega) (by rw [hsd.1]; exact hlen)
      hsd.2.1 hsd.2.2.1
    exact ⟨hsd.1 ▸ hres.1, hres.2.1, hres.2.2.1, hres.2.2.2.trans hsd.2.2.2⟩

/-- Floyd's bottom-up construction makes any position-correct slot array a
heap and permutes the active items. -/
theorem floyd_algorithm_spec (hc : IsCmp cmp) {len : Nat} (l : List (islbh_node α))
    (hlen : len ≤ l.length) (hpos : posOK len l) :
    (islbh__floyd_algorithm cmp len l).length = l.length ∧
    posOK len (islbh__floyd_algorithm cmp len l) ∧
    heapOrd cmp len (islbh__floyd_algorithm cmp len l) ∧
    List.Perm (activeItems len (islbh__floyd_algorithm cmp len l)) (activeItems len l) := by
  have := floydLoop_spec hc (len / 2) l (le_refl _) hlen hpos
    (fun j hj0 hjlen hbj => by
      exfalso
      have := child_lower hj0
      omega)
  exact this

/-- In a heap-ordered array the root is a minimum of the active region. -/
theorem heapOrd_root_min (hc : IsCmp cmp) {len : Nat} {l : List (islbh_node α)}
    (hord : heapOrd cmp len l) : ∀ j, j < len → 0 ≤ cmp (nodeAt l j).item (nodeAt l 0).item := by
  intro j
  induction j using Nat.strong_induction_on with
  | _ j IH =>
    intro hjlen
    rcases Nat.eq_zero_or_pos j with rfl | hj0
    · rcases le_or_lt 0 (cmp (nodeAt l 0).item (nodeAt l 0).item) with h | h
      · exact h
      · have := (hc.1 _ _).mp h
        omega
    · have hedge := hord j hj0 hjlen
      have hp_lt : parentIdx j < j := parentIdx_lt hj0
      have hrec := IH (parentIdx j) hp_lt (by omega)
      exact hc.ge_trans hedge hrec

end FloydSpec

section FloydEquiv

variable {α : Type} [Inhabited α] {cmp : α → α → Int}

theorem getElem?_eq_nodeAt {l : List (islbh_node α)} {n : Nat} (h : n < l.length) :
    l[n]? = some (nodeAt l n) := by
  rw [nodeAt_of_lt h, List.getElem?_eq_getElem h]

theorem node_mk_eta {a : islbh_node α} {i : Nat} (h : a.index = i) :
    (⟨a.item, i⟩ : islbh_node α) = a := by
  cases a with
  | mk it ix =>
    simp only at h
    rw [h]

/-- Swapping the same two position-correct slots twice restores the array. -/
theorem swap_swap_cancel {l : List (islbh_node α)} {i j : Nat}
    (hpi : (nodeAt l i).index = i) (hpj : (nodeAt l j).index = j)
    (hi : i < l.length) (hj : j < l.length) (hij : i ≠ j) :
    islbh__swap (islbh__swap l i j) j i = l := by
  have hlen1 : (islbh__swap l i j).length = l.length := length_swap l i j
  have hlen2 : (islbh__swap (islbh__swap l i j) j i).length = l.length := by
    rw [length_swap, hlen1]
  apply List.ext_getElem?
  intro n
  by_cases hn : n < l.length
  · rw [getElem?_eq_nodeAt (by omega : n < (islbh__swap (islbh__swap l i j) j i).length),
      getElem?_eq_nodeAt hn]
    congr 1
    rcases eq_or_ne n i with rfl | hni
    · rw [nodeAt_swap_snd (show n < (islbh__swap l n j).length by omega)]
      rw [item_swap_snd hj]
      exact node_mk_eta hpi
    · rcases eq_or_ne n j with rfl | hnj
      · rw [nodeAt_swap_fst (show n < (islbh__swap l i n).length by omega)
          (fun hh => hij hh.symm)]
        rw [item_swap_fst hi hij]
        exact node_mk_eta hpj
      · rw [nodeAt_swap_other hnj hni, nodeAt_swap_other hni hnj]
  · rw [List.getElem?_eq_none (by omega), List.getElem?_eq_none (by omega)]

/-- Undo step for the sift-up loop: sifting up from a child slot that was
just swapped down continues exactly as sifting up from the parent did. -/
theorem siftup_swap_step {l : List (islbh_node α)} {i j : Nat}
    (hpi : (nodeAt l i).index = i) (hpj : (nodeAt l j).index = j)
    (hij : parentIdx j = i) (hj0 : 0 < j) (hiL : i < l.length) (hjL : j < l.length)
    (hlt : cmp (nodeAt l i).item (nodeAt l j).item < 0) :
    islbh__siftup cmp (islbh__swap l i j) j = islbh__siftup cmp l i := by
  have hne : i ≠ j := by
    have := parentIdx_lt hj0
    omega
  rw [islbh__siftup_eq (l := islbh__swap l i j)]
  have hitem_j : (nodeAt (islbh__swap l i j) j).item = (nodeAt l i).item := item_swap_snd hjL
  have hitem_i : (nodeAt (islbh__swap l i j) i).item = (nodeAt l j).item :=
    item_swap_fst hiL hne
  rw [if_pos (by rw [hij, hitem_j, hitem_i]; exact ⟨hj0, hlt⟩)]
  rw [hij, swap_swap_cancel hpi hpj hiL hjL hne]

theorem higherChild_congr {len : Nat} {l1 l2 : List (islbh_node α)} {i : Nat}
    (h1 : (nodeAt l1 (2 * i + 1)).item = (nodeAt l2 (2 * i + 1)).item)
    (h2 : (nodeAt l1 (2 * i + 2)).item = (nodeAt l2 (2 * i + 2)).item) :
    higherChild cmp len l1 i = higherChild cmp len l2 i := by
  rw [higherChild, higherChild, h1, h2]

/-- After one unconditional descent swap, heap order away from the moved
slot is preserved (hypotheses as in the sift-down invariant with the
children-versus-grandparent side condition). -/
theorem descend_sub {len : Nat} {l : List (islbh_node α)} {i : Nat} (hc : IsCmp cmp)
    (hlen : len ≤ l.length) (hl : 2 * i + 1 < len)
    (hsub : ∀ j, 0 < j → j < len → j ≠ i → parentIdx j ≠ i →
      0 ≤ cmp (nodeAt l j).item (nodeAt l (parentIdx j)).item)
    (hgp : 0 < i → ∀ ch, ch < len → parentIdx ch = i →
      0 ≤ cmp (nodeAt l ch).item (nodeAt l (parentIdx i)).item) :
    ∀ j, 0 < j → j < len → j ≠ higherChild cmp len l i →
      parentIdx j ≠ higherChild cmp len l i →
      0 ≤ cmp (nodeAt (islbh__swap l i (higherChild cmp len l i)) j).item
        (nodeAt (islbh__swap l i (higherChild cmp len l i)) (parentIdx j)).item := by
  have hg_parent : parentIdx (higherChild cmp len l i) = i := higherChild_parent cmp len l i
  have hg_gt : i < higherChild cmp len l i := higherChild_gt cmp len l i
  have hg_lt : higherChild cmp len l i < len := higherChild_lt cmp hl
  have hiL : i < l.length := by omega
  have hgL : higherChild cmp len l i < l.length := by omega
  have hne : i ≠ higherChild cmp len l i := by omega
  have hswap_i : (nodeAt (islbh__swap l i (higherChild cmp len l i)) i).item =
      (nodeAt l (higherChild cmp len l i)).item := item_swap_fst hiL hne
  intro j hj0 hjlen hjg hpjg
  rcases eq_or_ne j i with hji | hji
  · subst hji
    have hpj_lt : parentIdx j < j := parentIdx_lt hj0
    rw [hswap_i, nodeAt_swap_other (by omega) hpjg]
    exact hgp hj0 (higherChild cmp len l j) hg_lt hg_parent
  · rw [nodeAt_swap_other hji hjg]
    rcases eq_or_ne (parentIdx j) i with hpj | hpj
    · rw [hpj, hswap_i]
      rcases child_cases hpj hj0 with hj1 | hj2
      · rcases higherChild_cases cmp len l i with ⟨he, hlt2, hcmp⟩ | ⟨he, hcmp⟩
        · rw [hj1, he]
          exact hc.ge_of_lt hcmp
        · exact absurd (hj1.trans he.symm) hjg
      · rcases higherChild_cases cmp len l i with ⟨he, hlt2, hcmp⟩ | ⟨he, hcmp⟩
        · exact absurd (hj2.trans he.symm) hjg
        · rw [hj2, he]
          exact hcmp (by omega)
    · rw [nodeAt_swap_other hpj hpjg]
      exact hsub j hj0 hjlen hji hpj

/-- After one unconditional descent swap, the children of the new slot
still dominate its parent (the grandparent side condition is maintained). -/
theorem descend_gp {len : Nat} {l : List (islbh_node α)} {i : Nat}
    (hlen : len ≤ l.length) (hl : 2 * i + 1 < len)
    (hsub : ∀ j, 0 < j → j < len → j ≠ i → parentIdx j ≠ i →
      0 ≤ cmp (nodeAt l j).item (nodeAt l (parentIdx j)).item) :
    0 < higherChild cmp len l i → ∀ ch, ch < len →
      parentIdx ch = higherChild cmp len l i →
      0 ≤ cmp (nodeAt (islbh__swap l i (higherChild cmp len l i)) ch).item
        (nodeAt (islbh__swap l i (higherChild cmp len l i))
          (parentIdx (higherChild cmp len l i))).item := by
  have hg_parent : parentIdx (higherChild cmp len l i) = i := higherChild_parent cmp len l i
  have hg_gt : i < higherChild cmp len l i := higherChild_gt cmp len l i
  have hg_lt : higherChild cmp len l i < len := higherChild_lt cmp hl
  have hiL : i < l.length := by omega
  have hne : i ≠ higherChild cmp len l i := by omega
  intro _ ch hchlen hchp
  have hch0 : 0 < ch := by
    by_contra hz
    have hchz : ch = 0 := by omega
    rw [hchz, parentIdx_zero] at hchp
    omega
  have hch_gt : higherChild cmp len l i < ch := by
    have := child_lower (j := ch) hch0
    omega
  rw [hg_parent, item_swap_fst hiL hne, nodeAt_swap_other (by omega) (by omega)]
  have hh := hsub ch hch0 hchlen (by omega) (by rw [hchp]; omega)
  rw [hchp] at hh
  exact hh

/-- Floyd descent restoration: when the moved slot already compares
strictly ahead of its higher-priority child, the unconditional descent
followed by the sift-up collapses to a single sift-up from the start. -/
theorem floyd_restore (hc : IsCmp cmp) {len : Nat} :
    ∀ (d i : Nat) (l : List (islbh_node α)),
      len - i ≤ d →
      len ≤ l.length → i < len → posOK len l →
      (∀ j, 0 < j → j < len → j ≠ i → parentIdx j ≠ i →
        0 ≤ cmp (nodeAt l j).item (nodeAt l (parentIdx j)).item) →
      (0 < i → ∀ ch, ch < len → parentIdx ch = i →
        0 ≤ cmp (nodeAt l ch).item (nodeAt l (parentIdx i)).item) →
      (2 * i + 1 < len →
        cmp (nodeAt l i).item (nodeAt l (higherChild cmp len l i)).item < 0) →
      islbh__siftdown_floyd cmp len l i = (islbh__siftup cmp l i).1 := by
  intro d
  induction d with
  | zero =>
    intro i l hd hlen hi hpos hsub hgp hlt
    rw [islbh__siftdown_floyd_eq, if_neg (by omega)]
  | succ dd IH =>
    intro i l hd hlen hi hpos hsub hgp hlt
    rw [islbh__siftdown_floyd_eq]
    by_cases hl : 2 * i + 1 < len
    · simp only [if_pos hl]
      have hg_parent : parentIdx (higherChild cmp len l i) = i := higherChild_parent cmp len l i
      have hg_gt : i < higherChild cmp len l i := higherChild_gt cmp len l i
      have hg_lt : higherChild cmp len l i < len := higherChild_lt cmp hl
      have hiL : i < l.length := by omega
      have hgL : higherChild cmp len l i < l.length := by omega
      have hne : i ≠ higherChild cmp len l i := by omega
      have hx := hlt hl
      have hlt2 : 2 * higherChild cmp len l i + 1 < len →
          cmp (nodeAt (islbh__swap l i (higherChild cmp len l i))
            (higherChild cmp len l i)).item
          (nodeAt (islbh__swap l i (higherChild cmp len l i))
            (higherChild cmp len (islbh__swap l i (higherChild cmp len l i))
              (higherChild cmp len l i))).item < 0 := by
        intro hll
        have hc1 : 2 * higherChild cmp len l i + 1 ≠ i := by omega
        have hc2 : 2 * higherChild cmp len l i + 2 ≠ i := by omega
        have hc1g : 2 * higherChild cmp len l i + 1 ≠ higherChild cmp len l i := by omega
        have hc2g : 2 * higherChild cmp len l i + 2 ≠ higherChild cmp len l i := by omega
        have hcongr : higherChild cmp len (islbh__swap l i (higherChild cmp len l i))
            (higherChild cmp len l i) = higherChild cmp len l (higherChild cmp len l i) := by
          apply higherChild_congr
          · rw [nodeAt_swap_other hc1 hc1g]
          · rw [nodeAt_swap_other hc2 hc2g]
        rw [hcongr]
        have hgg_parent : parentIdx (higherChild cmp len l (higherChild cmp len l i)) =
            higherChild cmp len l i := higherChild_parent cmp len l _
        have hgg_gt : higherChild cmp len l i <
            higherChild cmp len l (higherChild cmp len l i) := higherChild_gt cmp len l _
        have hgg_lt : higherChild cmp len l (higherChild cmp len l i) < len :=
          higherChild_lt cmp hll
        rw [item_swap_snd hgL, nodeAt_swap_other (by omega) (by omega)]
        have hedge : 0 ≤ cmp (nodeAt l (higherChild cmp len l (higherChild cmp len l i))).item
            (nodeAt l (higherChild cmp len l i)).item := by
          have := hsub (higherChild cmp len l (higherChild cmp len l i)) (by omega) hgg_lt
            (by omega) (by rw [hgg_parent]; omega)
          rw [hgg_parent] at this
          exact this
        exact hc.lt_of_lt_of_le hx hedge
      have hres := IH (higherChild cmp len l i) (islbh__swap l i (higherChild cmp len l i))
        (by omega) (by rw [length_swap]; omega) hg_lt
        (posOK_swap hpos hiL hgL hne)
        (descend_sub hc hlen hl hsub hgp)
        (fun hz ch hchlen hchp => descend_gp hlen hl hsub hz ch hchlen hchp)
        hlt2
      rw [hres]
      exact congrArg Prod.fst
        (siftup_swap_step (hpos i (by omega)) (hpos _ hg_lt) hg_parent (by omega) hiL hgL hx)
    · simp only [if_neg hl]

/-- Equivalence of the two sift-down procedures under the invariants in
force when `islbh__siftdown_floyd` is called: positions recorded
correctly, heap order everywhere except at the moved slot, the moved
slot's children dominating its parent, and the moved slot not outranking
its parent. -/
theorem floyd_eq_siftdown_aux (hc : IsCmp cmp) {len : Nat} :
    ∀ (d i : Nat) (l : List (islbh_node α)),
      len - i ≤ d →
      len ≤ l.length → i < len → posOK len l →
      (∀ j, 0 < j → j < len → j ≠ i → parentIdx j ≠ i →
        0 ≤ cmp (nodeAt l j).item (nodeAt l (parentIdx j)).item) →
      (0 < i → ∀ ch, ch < len → parentIdx ch = i →
        0 ≤ cmp (nodeAt l ch).item (nodeAt l (parentIdx i)).item) →
      (0 < i → 0 ≤ cmp (nodeAt l i).item (nodeAt l (parentIdx i)).item) →
      islbh__siftdown_floyd cmp len l i = islbh__siftdown cmp len l i := by
  intro d
  induction d with
  | zero =>
    intro i l hd hlen hi hpos hsub hgp hstop
    omega
  | succ dd IH =>
    intro i l hd hlen hi hpos hsub hgp hstop
    by_cases hl : 2 * i + 1 < len
    · have hg_parent : parentIdx (higherChild cmp len l i) = i := higherChild_parent cmp len l i
      have hg_gt : i < higherChild cmp len l i := higherChild_gt cmp len l i
      have hg_lt : higherChild cmp len l i < len := higherChild_lt cmp hl
      have hiL : i < l.length := by omega
      have hgL : higherChild cmp len l i < l.length := by omega
      have hne : i ≠ higherChild cmp len l i := by omega
      by_cases hstop2 : cmp (nodeAt l i).item (nodeAt l (higherChild cmp len l i)).item < 0
      · rw [islbh__siftdown_eq, if_pos hl, if_pos hstop2]
        rw [floyd_restore hc (len - i) i l (le_refl _) hlen hi hpos hsub hgp
          (fun _ => hstop2)]
        rw [islbh__siftup_eq]
        rcases Nat.eq_zero_or_pos i with rfl | hi0
        · rw [if_neg (by simp)]
        · rw [if_neg (by
            intro hcontra
            have := hstop hi0
            omega)]
      · rw [islbh__siftdown_eq, if_pos hl, if_neg hstop2,
          islbh__siftdown_floyd_eq, if_pos hl]
        apply IH (higherChild cmp len l i) (islbh__swap l i (higherChild cmp len l i))
          (by omega) (by rw [length_swap]; omega) hg_lt
          (posOK_swap hpos hiL hgL hne)
          (descend_sub hc hlen hl hsub hgp)
          (fun hz ch hchlen hchp => descend_gp hlen hl hsub hz ch hchlen hchp)
        intro _
        rw [hg_parent, item_swap_snd hgL, item_swap_fst hiL hne]
        omega
    · rw [islbh__siftdown_eq, if_neg hl, islbh__siftdown_floyd_eq, if_neg hl]
      rw [islbh__siftup_eq]
      rcases Nat.eq_zero_or_pos i with rfl | hi0
      · rw [if_neg (by simp)]
      · rw [if_neg (by
          intro hcontra
          have := hstop hi0
          omega)]

end FloydEquiv

section OpHelpers

variable {α : Type} [Inhabited α] {cmp : α → α → Int}

theorem activeItems_length {len : Nat} {l : List (islbh_node α)} (h : len ≤ l.length) :
    (activeItems len l).length = len := by
  simp [activeItems, List.length_take]
  omega

theorem activeItems_succ {len : Nat} {l : List (islbh_node α)} (h : len < l.length) :
    activeItems (len + 1) l = activeItems len l ++ [(nodeAt l len).item] := by
  rw [activeItems, List.take_succ, getElem?_eq_nodeAt h]
  simp [activeItems]

theorem activeItems_zero (l : List (islbh_node α)) : activeItems 0 l = [] := by
  simp [activeItems]

theorem activeItems_eq_of_item {len : Nat} {l1 l2 : List (islbh_node α)}
    (h1 : len ≤ l1.length) (h2 : len ≤ l2.length)
    (h : ∀ j, j < len → (nodeAt l1 j).item = (nodeAt l2 j).item) :
    activeItems len l1 = activeItems len l2 := by
  apply List.ext_getElem
  · rw [activeItems_length h1, activeItems_length h2]
  · intro n hn1 hn2
    have hn : n < len := by
      have := activeItems_length h1
      omega
    simp only [activeItems, List.getElem_map, List.getElem_take]
    rw [← nodeAt_of_lt (by omega : n < l1.length), ← nodeAt_of_lt (by omega : n < l2.length)]
    exact h n hn

theorem mem_activeItems {len : Nat} {l : List (islbh_node α)} {y : α}
    (hmem : y ∈ activeItems len l) : ∃ j, j < len ∧ j < l.length ∧ (nodeAt l j).item = y := by
  rw [activeItems] at hmem
  obtain ⟨a, ha, hay⟩ := List.mem_map.mp hmem
  obtain ⟨n, hn, hna⟩ := List.mem_iff_getElem.mp ha
  have hn' : n < len ∧ n < l.length := by
    simp [List.length_take] at hn
    omega
  refine ⟨n, hn'.1, hn'.2, ?_⟩
  rw [nodeAt_of_lt hn'.2, ← List.getElem_take (h := hn), hna, hay]

theorem grow_length (h : islbh_binary_heap α) (n : Nat) :
    (islbh__grow h n).nodes.length = n := by
  simp [islbh__grow, List.length_take]
  omega

theorem grow_nodeAt {h : islbh_binary_heap α} {n j : Nat} (hj : j < h.nodes.length)
    (hjn : j < n) : nodeAt (islbh__grow h n).nodes j = nodeAt h.nodes j := by
  simp only [islbh__grow, nodeAt]
  rw [List.getElem?_take_of_lt hjn, List.getElem?_append_left hj]

theorem posOK_mono {len1 len2 : Nat} {l : List (islbh_node α)} (h : posOK len2 l)
    (hle : len1 ≤ len2) : posOK len1 l :=
  fun i hi => h i (by omega)

theorem heapOrd_mono {len1 len2 : Nat} {l : List (islbh_node α)} (h : heapOrd cmp len2 l)
    (hle : len1 ≤ len2) : heapOrd cmp len1 l :=
  fun i hi0 hi => h i hi0 (by omega)

/-- The chained grandparent condition: in a full heap the children of any
slot dominate that slot's parent. -/
theorem heapOrd_gp (hc : IsCmp cmp) {len : Nat} {l : List (islbh_node α)}
    (hord : heapOrd cmp len l) {i : Nat} (hi0 : 0 < i) :
    ∀ ch, ch < len → parentIdx ch = i →
      0 ≤ cmp (nodeAt l ch).item (nodeAt l (parentIdx i)).item := by
  intro ch hchlen hchp
  have hch0 : 0 < ch := by
    by_contra hz
    have hchz : ch = 0 := by omega
    rw [hchz, parentIdx_zero] at hchp
    omega
  have h1 := hord ch hch0 hchlen
  rw [hchp] at h1
  have hilen : i < len := by
    have := child_lower hch0
    omega
  have h2 := hord i hi0 hilen
  exact hc.ge_trans h1 h2

/-- Appending one slot at position `len` and sifting it up yields a valid
heap on `len + 1` active slots whose items are the old active items plus
the new one. -/
theorem place_siftup_spec (hc : IsCmp cmp) {len : Nat} (base : List (islbh_node α)) (x : α)
    (hblen : len < base.length) (hpos : posOK len base) (hord : heapOrd cmp len base) :
    (islbh__siftup cmp (base.set len ⟨x, len⟩) len).1.length = base.length ∧
    posOK (len + 1) (islbh__siftup cmp (base.set len ⟨x, len⟩) len).1 ∧
    heapOrd cmp (len + 1) (islbh__siftup cmp (base.set len ⟨x, len⟩) len).1 ∧
    List.Perm (activeItems (len + 1) (islbh__siftup cmp (base.set len ⟨x, len⟩) len).1)
      (activeItems len base ++ [x]) := by
  have hsetlen : (base.set len ⟨x, len⟩).length = base.length := by simp
  have hset_self : nodeAt (base.set len ⟨x, len⟩) len = ⟨x, len⟩ :=
    nodeAt_set_self hblen
  have hset_ne : ∀ j, j ≠ len → nodeAt (base.set len ⟨x, len⟩) j = nodeAt base j :=
    fun j hj => nodeAt_set_ne (fun hh => hj hh.symm) _
  have hpos1 : posOK (len + 1) (base.set len ⟨x, len⟩) := by
    intro j hj
    rcases eq_or_ne j len with rfl | hjne
    · rw [hset_self]
    · rw [hset_ne j hjne]
      exact hpos j (by omega)
  have hsu := @siftup_spec α _ cmp hc (len + 1) len (base.set len ⟨x, len⟩)
    (by omega) (by omega) hpos1
    (fun j hj0 hjlen hjne => by
      have hjlt : j < len := by omega
      have hpj : parentIdx j < len := by
        have := parentIdx_lt hj0
        omega
      rw [hset_ne j hjne, hset_ne (parentIdx j) (by omega)]
      exact hord j hj0 hjlt)
    (fun hz ch hchlen hchp => by
      exfalso
      have hch0 : 0 < ch := by
        by_contra hzz
        have hchz : ch = 0 := by omega
        rw [hchz, parentIdx_zero] at hchp
        omega
      have := child_lower hch0
      omega)
  refine ⟨by rw [hsu.1, hsetlen], hsu.2.1, hsu.2.2.1, ?_⟩
  refine hsu.2.2.2.1.trans ?_
  have h1 : activeItems (len + 1) (base.set len ⟨x, len⟩) =
      activeItems len (base.set len ⟨x, len⟩) ++ [x] := by
    rw [activeItems_succ (by omega), hset_self]
  have h2 : activeItems len (base.set len ⟨x, len⟩) = activeItems len base := by
    apply activeItems_eq_of_item (by omega) (by omega)
    intro j hj
    rw [hset_ne j (by omega)]
  rw [h1, h2]

end OpHelpers

section EnqueueDequeueSpec

variable {α : Type} [Inhabited α] {cmp : α → α → Int}

/-- A successful enqueue preserves the heap invariants, increments the
length, never shrinks the capacity, and adds exactly the new item. -/
theorem enqueue_spec (hc : IsCmp cmp) (h : islbh_binary_heap α) (x : α)
    (hv : Valid cmp h) (hcap : 0 < h.nodes.length ∨ h.length < h.nodes.length) :
    (islbh_enqueue cmp true h x).1.length = h.length + 1 ∧
    (islbh_enqueue cmp true h x).2.isSome = true ∧
    Valid cmp (islbh_enqueue cmp true h x).1 ∧
    h.nodes.length ≤ (islbh_enqueue cmp true h x).1.nodes.length ∧
    0 < (islbh_enqueue cmp true h x).1.nodes.length ∧
    List.Perm (activeItems (h.length + 1) (islbh_enqueue cmp true h x).1.nodes)
      (activeItems h.length h.nodes ++ [x]) := by
  obtain ⟨hvlen, hvpos, hvord⟩ := hv
  by_cases hfull : h.nodes.length ≤ h.length
  · have heq : h.nodes.length = h.length := by omega
    have hpos0 : 0 < h.nodes.length := by
      rcases hcap with hcap | hcap
      · exact hcap
      · omega
    have hglen : (islbh__grow h (h.nodes.length * 2)).nodes.length = h.nodes.length * 2 :=
      grow_length h _
    have hgrow_at : ∀ j, j < h.length →
        nodeAt (islbh__grow h (h.nodes.length * 2)).nodes j = nodeAt h.nodes j := by
      intro j hj
      exact grow_nodeAt (by omega) (by omega)
    have hgpos : posOK h.length (islbh__grow h (h.nodes.length * 2)).nodes := by
      intro j hj
      rw [hgrow_at j hj]
      exact hvpos j hj
    have hgord : heapOrd cmp h.length (islbh__grow h (h.nodes.length * 2)).nodes := by
      intro j hj0 hj
      have hpj : parentIdx j < h.length := by
        have := parentIdx_lt hj0
        omega
      rw [hgrow_at j hj, hgrow_at (parentIdx j) hpj]
      exact hvord j hj0 hj
    have hps := place_siftup_spec hc (islbh__grow h (h.nodes.length * 2)).nodes x
      (by omega) hgpos hgord
    have hactive : activeItems h.length (islbh__grow h (h.nodes.length * 2)).nodes =
        activeItems h.length h.nodes := by
      apply activeItems_eq_of_item (by omega) (by omega)
      intro j hj
      rw [hgrow_at j hj]
    have hunfold : islbh_enqueue cmp true h x =
        ({ length := h.length + 1,
           nodes := (islbh__siftup cmp
             ((islbh__grow h (h.nodes.length * 2)).nodes.set h.length
               ⟨x, h.length⟩) h.length).1 },
          some (islbh__siftup cmp
            ((islbh__grow h (h.nodes.length * 2)).nodes.set h.length
              ⟨x, h.length⟩) h.length).2) := by
      rw [islbh_enqueue]
      simp only [if_pos hfull, if_true]
    rw [hunfold]
    refine ⟨rfl, rfl, ⟨?_, hps.2.1, hps.2.2.1⟩, ?_, ?_, ?_⟩
    · simp only
      rw [hps.1]
      omega
    · simp only
      rw [hps.1]
      omega
    · simp only
      rw [hps.1]
      omega
    · simp only
      rw [← hactive]
      exact hps.2.2.2
  · have hlt : h.length < h.nodes.length := by omega
    have hps := place_siftup_spec hc h.nodes x hlt hvpos hvord
    have hunfold : islbh_enqueue cmp true h x =
        ({ length := h.length + 1,
           nodes := (islbh__siftup cmp (h.nodes.set h.length ⟨x, h.length⟩) h.length).1 },
          some (islbh__siftup cmp (h.nodes.set h.length ⟨x, h.length⟩) h.length).2) := by
      rw [islbh_enqueue]
      simp only [if_neg hfull]
    rw [hunfold]
    refine ⟨rfl, rfl, ⟨?_, hps.2.1, hps.2.2.1⟩, ?_, ?_, ?_⟩
    · simp only
      rw [hps.1]
      omega
    · simp only
      rw [hps.1]
    · simp only
      rw [hps.1]
      omega
    · simp only
      exact hps.2.2.2

/-- A dequeue from a nonempty valid heap returns the root item, keeps the
invariants on one fewer element, and removes exactly that item. -/
theorem dequeue_spec (hc : IsCmp cmp) (h : islbh_binary_heap α) (hv : Valid cmp h)
    (h0 : 0 < h.length) :
    (islbh_dequeue cmp h).1.length = h.length - 1 ∧
    (islbh_dequeue cmp h).2 = some (nodeAt h.nodes 0).item ∧
    Valid cmp (islbh_dequeue cmp h).1 ∧
    (islbh_dequeue cmp h).1.nodes.length = h.nodes.length ∧
    List.Perm ((nodeAt h.nodes 0).item ::
        activeItems (h.length - 1) (islbh_dequeue cmp h).1.nodes)
      (activeItems h.length h.nodes) := by
  obtain ⟨hvlen, hvpos, hvord⟩ := hv
  by_cases h1 : h.length = 1
  · have hunfold : islbh_dequeue cmp h =
        ({ h with length := 0 }, some (nodeAt h.nodes 0).item) := by
      rw [islbh_dequeue, if_neg (by omega), if_pos h1]
    rw [hunfold]
    have hz : h.length - 1 = 0 := by omega
    refine ⟨by simp [h1], rfl, ⟨by simp, fun i hi => absurd hi (by simp), fun i hi0 hi =>
      absurd hi (by simp)⟩, rfl, ?_⟩
    rw [hz, activeItems_zero]
    have hone : activeItems h.length h.nodes =
        activeItems 0 h.nodes ++ [(nodeAt h.nodes 0).item] := by
      rw [h1]
      exact activeItems_succ (by omega)
    rw [hone, activeItems_zero]
    simp
  · have h2 : 2 ≤ h.length := by omega
    have hlast : h.length - 1 < h.nodes.length := by omega
    have h0L : 0 < h.nodes.length := by omega
    have hne : (0 : Nat) ≠ h.length - 1 := by omega
    have hswap_pos : posOK (h.length - 1) (islbh__swap h.nodes 0 (h.length - 1)) :=
      posOK_mono (posOK_swap hvpos h0L hlast hne) (by omega)
    have hswap_at : ∀ j, 0 < j → j < h.length - 1 →
        nodeAt (islbh__swap h.nodes 0 (h.length - 1)) j = nodeAt h.nodes j := by
      intro j hj0 hj
      exact nodeAt_swap_other (by omega) (by omega)
    have hswap_len : (islbh__swap h.nodes 0 (h.length - 1)).length = h.nodes.length :=
      length_swap _ _ _
    have hsub : ∀ j, 0 < j → j < h.length - 1 → j ≠ 0 → parentIdx j ≠ 0 →
        0 ≤ cmp (nodeAt (islbh__swap h.nodes 0 (h.length - 1)) j).item
          (nodeAt (islbh__swap h.nodes 0 (h.length - 1)) (parentIdx j)).item := by
      intro j hj0 hjlen hjne hpjne
      have hpj0 : 0 < parentIdx j := by omega
      have hpjlt : parentIdx j < j := parentIdx_lt hj0
      rw [hswap_at j hj0 hjlen, hswap_at (parentIdx j) hpj0 (by omega)]
      exact hvord j hj0 (by omega)
    have hfe : islbh__siftdown_floyd cmp (h.length - 1)
        (islbh__swap h.nodes 0 (h.length - 1)) 0 =
        islbh__siftdown cmp (h.length - 1) (islbh__swap h.nodes 0 (h.length - 1)) 0 :=
      floyd_eq_siftdown_aux hc (h.length - 1) 0 (islbh__swap h.nodes 0 (h.length - 1))
        (by omega) (by rw [hswap_len]; omega) (by omega) hswap_pos
        (fun j hj0 hjlen hjne hpjne => hsub j hj0 hjlen hjne hpjne)
        (fun hz => absurd hz (by omega))
        (fun hz => absurd hz (by omega))
    have hsd := @siftdown_spec α _ cmp hc (h.length - 1) 0 (h.length - 1) 0
      (islbh__swap h.nodes 0 (h.length - 1))
      (by omega) (by rw [hswap_len]; omega) (by omega) hswap_pos
      (fun j hj0 hjlen hbj hpjne => hsub j hj0 hjlen (by omega) hpjne)
      (fun hx => absurd hx.2 (by omega))
    have hunfold : islbh_dequeue cmp h =
        ({ length := h.length - 1,
           nodes := islbh__siftdown_floyd cmp (h.length - 1)
             (islbh__swap h.nodes 0 (h.length - 1)) 0 },
          some (nodeAt h.nodes 0).item) := by
      rw [islbh_dequeue, if_neg (by omega), if_neg h1]
    rw [hunfold, hfe]
    refine ⟨rfl, rfl, ⟨?_, hsd.2.1, fun j hj0 hj => hsd.2.2.1 j hj0 hj (Nat.zero_le _)⟩,
      ?_, ?_⟩
    · simp only
      rw [hsd.1, hswap_len]
      omega
    · simp only
      rw [hsd.1, hswap_len]
    · simp only
      have hperm1 : List.Perm
          (activeItems (h.length - 1)
            (islbh__siftdown cmp (h.length - 1) (islbh__swap h.nodes 0 (h.length - 1)) 0))
          (activeItems (h.length - 1) (islbh__swap h.nodes 0 (h.length - 1))) := hsd.2.2.2
      have hperm2 : List.Perm (activeItems h.length (islbh__swap h.nodes 0 (h.length - 1)))
          (activeItems h.length h.nodes) :=
        activeItems_swap_perm hvlen (by omega) (by omega)
      have hsucc : activeItems h.length (islbh__swap h.nodes 0 (h.length - 1)) =
          activeItems (h.length - 1) (islbh__swap h.nodes 0 (h.length - 1)) ++
            [(nodeAt h.nodes 0).item] := by
        have hx : activeItems (h.length - 1 + 1) (islbh__swap h.nodes 0 (h.length - 1)) =
            activeItems (h.length - 1) (islbh__swap h.nodes 0 (h.length - 1)) ++
              [(nodeAt (islbh__swap h.nodes 0 (h.length - 1)) (h.length - 1)).item] :=
          activeItems_succ (by omega)
        rw [item_swap_snd hlast] at hx
        have hlen_eq : h.length - 1 + 1 = h.length := by omega
        rw [hlen_eq] at hx
        exact hx
      have hstep1 : List.Perm ((nodeAt h.nodes 0).item ::
          activeItems (h.length - 1)
            (islbh__siftdown cmp (h.length - 1) (islbh__swap h.nodes 0 (h.length - 1)) 0))
          ((nodeAt h.nodes 0).item ::
            activeItems (h.length - 1) (islbh__swap h.nodes 0 (h.length - 1))) :=
        hperm1.cons _
      have hstep2 : List.Perm ((nodeAt h.nodes 0).item ::
          activeItems (h.length - 1) (islbh__swap h.nodes 0 (h.length - 1)))
          (activeItems (h.length - 1) (islbh__swap h.nodes 0 (h.length - 1)) ++
            [(nodeAt h.nodes 0).item]) :=
        (List.perm_append_singleton _ _).symm
      rw [← hsucc] at hstep2
      exact (hstep1.trans hstep2).trans hperm2

end EnqueueDequeueSpec

section UpdateRemoveSpec

variable {α : Type} [Inhabited α] {cmp : α → α → Int}

/-- Sifting down any index of a full heap keeps it a heap. -/
theorem siftdown_on_heap (hc : IsCmp cmp) {len : Nat} (l : List (islbh_node α)) (i : Nat)
    (hlen : len ≤ l.length) (hpos : posOK len l) (hord : heapOrd cmp len l) :
    (islbh__siftdown cmp len l i).length = l.length ∧
    posOK len (islbh__siftdown cmp len l i) ∧
    heapOrd cmp len (islbh__siftdown cmp len l i) ∧
    List.Perm (activeItems len (islbh__siftdown cmp len l i)) (activeItems len l) := by
  have hsd := @siftdown_spec α _ cmp hc len 0 len i l (by omega) hlen (Nat.zero_le _) hpos
    (fun j hj0 hjlen hbj hpj => hord j hj0 hjlen)
    (fun hx ch hchlen hchp => heapOrd_gp hc hord hx.2 ch hchlen hchp)
  exact ⟨hsd.1, hsd.2.1, fun j hj0 hjlen => hsd.2.2.1 j hj0 hjlen (Nat.zero_le _), hsd.2.2.2⟩

/-- Correctness of `islbh_update` under the invariant in force when it is
called: all heap edges not touching `pos` hold, and the children of `pos`
dominate the parent of `pos`. The sift-up followed by the sift-down
restores full heap order. -/
theorem update_spec (hc : IsCmp cmp) (h : islbh_binary_heap α) (pos : Nat)
    (hlen : h.length ≤ h.nodes.length) (hplt : pos < h.length)
    (hpos : posOK h.length h.nodes)
    (hsub : ∀ j, 0 < j → j < h.length → j ≠ pos → parentIdx j ≠ pos →
      0 ≤ cmp (nodeAt h.nodes j).item (nodeAt h.nodes (parentIdx j)).item)
    (hgp : 0 < pos → ∀ ch, ch < h.length → parentIdx ch = pos →
      0 ≤ cmp (nodeAt h.nodes ch).item (nodeAt h.nodes (parentIdx pos)).item) :
    (islbh_update cmp h pos).length = h.length ∧
    (islbh_update cmp h pos).nodes.length = h.nodes.length ∧
    Valid cmp (islbh_update cmp h pos) ∧
    List.Perm (activeItems h.length (islbh_update cmp h pos).nodes)
      (activeItems h.length h.nodes) := by
  have hu : islbh_update cmp h pos =
      islbh_binary_heap.mk h.length
        (islbh__siftdown cmp h.length (islbh__siftup cmp h.nodes pos).1
          (islbh__siftup cmp h.nodes pos).2) := rfl
  by_cases hup : 0 < pos ∧
      cmp (nodeAt h.nodes pos).item (nodeAt h.nodes (parentIdx pos)).item < 0
  · have hsuinv : ∀ j, 0 < j → j < h.length → j ≠ pos →
        0 ≤ cmp (nodeAt h.nodes j).item (nodeAt h.nodes (parentIdx j)).item := by
      intro j hj0 hjlen hjne
      rcases eq_or_ne (parentIdx j) pos with hpj | hpj
      · rw [hpj]
        by_contra hneg
        have hjp : cmp (nodeAt h.nodes j).item (nodeAt h.nodes pos).item < 0 := by omega
        have : cmp (nodeAt h.nodes j).item (nodeAt h.nodes (parentIdx pos)).item < 0 :=
          hc.lt_of_le_of_lt (le_of_lt hjp) hup.2
        have := hgp hup.1 j hjlen hpj
        omega
      · exact hsub j hj0 hjlen hjne hpj
    have hsu := @siftup_spec α _ cmp hc h.length pos h.nodes hlen hplt hpos hsuinv
      (fun hz ch hchlen hchp => hgp hz ch hchlen hchp)
    have hsd := siftdown_on_heap hc (islbh__siftup cmp h.nodes pos).1
      (islbh__siftup cmp h.nodes pos).2 (by rw [hsu.1]; exact hlen) hsu.2.1 hsu.2.2.1
    rw [hu]
    refine ⟨rfl, ?_, ⟨?_, hsd.2.1, hsd.2.2.1⟩, ?_⟩
    · simp only
      rw [hsd.1, hsu.1]
    · simp only
      rw [hsd.1, hsu.1]
      exact hlen
    · simp only
      exact hsd.2.2.2.trans hsu.2.2.2.1
  · have hsu_eq : islbh__siftup cmp h.nodes pos = (h.nodes, pos) := by
      rw [islbh__siftup_eq, if_neg hup]
    have hsdinv : ∀ j, 0 < j → j < h.length → (0 : Nat) ≤ parentIdx j → parentIdx j ≠ pos →
        0 ≤ cmp (nodeAt h.nodes j).item (nodeAt h.nodes (parentIdx j)).item := by
      intro j hj0 hjlen hbj hpj
      rcases eq_or_ne j pos with hjp | hjp
      · subst hjp
        rcases Decidable.not_and_iff_or_not.mp hup with hz | hz
        · omega
        · omega
      · exact hsub j hj0 hjlen hjp hpj
    have hsd := @siftdown_spec α _ cmp hc h.length 0 h.length pos h.nodes
      (by omega) hlen (Nat.zero_le _) hpos hsdinv
      (fun hx ch hchlen hchp => hgp hx.2 ch hchlen hchp)
    rw [hu, hsu_eq]
    refine ⟨rfl, ?_, ⟨?_, hsd.2.1, fun j hj0 hjlen => hsd.2.2.1 j hj0 hjlen (Nat.zero_le _)⟩, ?_⟩
    · simp only
      rw [hsd.1]
    · simp only
      rw [hsd.1]
      exact hlen
    · simp only
      exact hsd.2.2.2

/-- Correctness of the successful `islbh_remove` path on a valid heap: the
result is `OK`, one element shorter, the named item is removed, and the
invariants hold. -/
theorem remove_spec (hc : IsCmp cmp) (h : islbh_binary_heap α) (pos : Nat)
    (hv : Valid cmp h) (hplt : pos < h.length) :
    (islbh_remove cmp h (some (pos, true))).2 = islbh_error.OK ∧
    (islbh_remove cmp h (some (pos, true))).1.length = h.length - 1 ∧
    (islbh_remove cmp h (some (pos, true))).1.nodes.length = h.nodes.length ∧
    Valid cmp (islbh_remove cmp h (some (pos, true))).1 ∧
    List.Perm ((nodeAt h.nodes pos).item ::
        activeItems (h.length - 1) (islbh_remove cmp h (some (pos, true))).1.nodes)
      (activeItems h.length h.nodes) := by
  obtain ⟨hvlen, hvpos, hvord⟩ := hv
  have hposL : pos < h.nodes.length := by omega
  by_cases hpl : pos = h.length - 1
  · have hrm : islbh_remove cmp h (some (pos, true)) =
        (islbh_update cmp { length := h.length - 1, nodes := h.nodes }
          (nodeAt h.nodes pos).index, islbh_error.OK) := by
      rw [islbh_remove]
      simp only [if_neg (show ¬(h.length ≤ pos ∨ true = false) by simp; omega)]
      rw [if_neg (by omega : ¬pos ≠ h.length - 1)]
    have hidx : (nodeAt h.nodes pos).index = pos := hvpos pos hplt
    have hupd : islbh_update cmp (islbh_binary_heap.mk (h.length - 1) h.nodes) pos =
        islbh_binary_heap.mk (h.length - 1) h.nodes := by
      have hsu_eq : islbh__siftup cmp h.nodes pos = (h.nodes, pos) := by
        rw [islbh__siftup_eq]
        rw [if_neg (by
          intro hcontra
          have := hvord pos hcontra.1 hplt
          omega)]
      rw [islbh_update]
      simp only [hsu_eq]
      rw [islbh__siftdown_eq]
      rw [if_neg (by simp only; omega :
        ¬2 * pos + 1 < (islbh_binary_heap.mk (h.length - 1) h.nodes).length)]
    rw [hrm, hidx, hupd]
    refine ⟨rfl, rfl, rfl, ⟨show h.length - 1 ≤ h.nodes.length by omega,
      posOK_mono hvpos (Nat.sub_le h.length 1),
      heapOrd_mono hvord (Nat.sub_le h.length 1)⟩, ?_⟩
    simp only
    have hsucc : activeItems h.length h.nodes =
        activeItems (h.length - 1) h.nodes ++ [(nodeAt h.nodes (h.length - 1)).item] := by
      have := @activeItems_succ _ _ (h.length - 1) h.nodes (by omega)
      rw [show h.length - 1 + 1 = h.length by omega] at this
      exact this
    rw [hsucc, hpl]
    exact (List.perm_append_singleton _ _).symm
  · have hplt2 : pos < h.length - 1 := by omega
    have h2 : 2 ≤ h.length := by omega
    have hlast : h.length - 1 < h.nodes.length := by omega
    have hswap_idx : (nodeAt (islbh__swap h.nodes pos (h.length - 1)) pos).index = pos := by
      rw [nodeAt_swap_fst hposL (by omega)]
    have hrm : islbh_remove cmp h (some (pos, true)) =
        (islbh_update cmp (islbh_binary_heap.mk (h.length - 1)
            (islbh__swap h.nodes pos (h.length - 1)))
          (nodeAt (islbh__swap h.nodes pos (h.length - 1)) pos).index, islbh_error.OK) := by
      rw [islbh_remove]
      simp only [if_neg (show ¬(h.length ≤ pos ∨ true = false) by simp; omega)]
      rw [if_pos (by omega : pos ≠ h.length - 1)]
    have hswap_len : (islbh__swap h.nodes pos (h.length - 1)).length = h.nodes.length :=
      length_swap _ _ _
    have hswap_at : ∀ k, k ≠ pos → k ≠ h.length - 1 →
        nodeAt (islbh__swap h.nodes pos (h.length - 1)) k = nodeAt h.nodes k :=
      fun k h1 h2 => nodeAt_swap_other h1 h2
    have hup := update_spec hc (islbh_binary_heap.mk (h.length - 1)
        (islbh__swap h.nodes pos (h.length - 1))) pos
      (by simp only; omega) (by simp only; omega)
      (by simp only; exact posOK_mono (posOK_swap hvpos hposL hlast (by omega)) (by omega))
      (by
        simp only
        intro j hj0 hjlen hjne hpjne
        have hpj_lt : parentIdx j < j := parentIdx_lt hj0
        rw [hswap_at j hjne (by omega), hswap_at (parentIdx j) hpjne (by omega)]
        exact hvord j hj0 (by omega))
      (by
        simp only
        intro hz ch hchlen hchp
        have hch_gt : pos < ch := by
          have := child_lower (j := ch) (by
            by_contra hzz
            have hchz : ch = 0 := by omega
            rw [hchz, parentIdx_zero] at hchp
            omega)
          omega
        have hpp_lt : parentIdx pos < pos := parentIdx_lt hz
        rw [hswap_at ch (by omega) (by omega), hswap_at (parentIdx pos) (by omega) (by omega)]
        have h1 := hvord ch (by omega) (by omega)
        rw [hchp] at h1
        have h2 := hvord pos hz (by omega)
        exact hc.ge_trans h1 h2)
    rw [hrm, hswap_idx]
    refine ⟨rfl, ?_, ?_, hup.2.2.1, ?_⟩
    · simp only
      rw [hup.1]
    · simp only
      rw [hup.2.1]
      simp only
      exact hswap_len
    · simp only
      have hperm1 := hup.2.2.2
      simp only at hperm1
      have hperm2 : List.Perm (activeItems h.length (islbh__swap h.nodes pos (h.length - 1)))
          (activeItems h.length h.nodes) :=
        activeItems_swap_perm hvlen (by omega) (by omega)
      have hsucc : activeItems h.length (islbh__swap h.nodes pos (h.length - 1)) =
          activeItems (h.length - 1) (islbh__swap h.nodes pos (h.length - 1)) ++
            [(nodeAt h.nodes pos).item] := by
        have hx := @activeItems_succ _ _ (h.length - 1)
          (islbh__swap h.nodes pos (h.length - 1)) (by omega)
        rw [item_swap_snd hlast] at hx
        rw [show h.length - 1 + 1 = h.length by omega] at hx
        exact hx
      have hstep1 : List.Perm ((nodeAt h.nodes pos).item ::
          activeItems (h.length - 1)
            (islbh_update cmp (islbh_binary_heap.mk (h.length - 1)
              (islbh__swap h.nodes pos (h.length - 1))) pos).nodes)
          ((nodeAt h.nodes pos).item ::
            activeItems (h.length - 1) (islbh__swap h.nodes pos (h.length - 1))) :=
        hperm1.cons _
      have hstep2 : List.Perm ((nodeAt h.nodes pos).item ::
          activeItems (h.length - 1) (islbh__swap h.nodes pos (h.length - 1)))
          (activeItems (h.length - 1) (islbh__swap h.nodes pos (h.length - 1)) ++
            [(nodeAt h.nodes pos).item]) :=
        (List.perm_append_singleton _ _).symm
      rw [← hsucc] at hstep2
      exact (hstep1.trans hstep2).trans hperm2

end UpdateRemoveSpec

section BatchSpec

variable {α : Type} [Inhabited α] {cmp : α → α → Int}

theorem batchDoubling_of_le {a need : Nat} (h : need ≤ a) :
    ∀ fuel, batchDoubling fuel a need = some a
  | 0 => by rw [batchDoubling, if_neg (by omega)]
  | fuel + 1 => by rw [batchDoubling, if_neg (by omega)]

theorem batchDoubling_some : ∀ (fuel : Nat) {a need v : Nat},
    batchDoubling fuel a need = some v → need ≤ v ∧ a ≤ v := by
  intro fuel
  induction fuel with
  | zero =>
    intro a need v h
    rw [batchDoubling] at h
    by_cases hlt : a < need
    · rw [if_pos hlt] at h
      cases h
    · rw [if_neg hlt] at h
      cases h
      omega
  | succ f IH =>
    intro a need v h
    rw [batchDoubling] at h
    by_cases hlt : a < need
    · rw [if_pos hlt] at h
      have := IH h
      omega
    · rw [if_neg hlt] at h
      cases h
      omega

theorem placeItems_length : ∀ (xs : List α) (l : List (islbh_node α)) (i : Nat),
    (placeItems l i xs).length = l.length
  | [], l, i => rfl
  | x :: xs, l, i => by
    rw [placeItems, placeItems_length xs]
    simp

theorem placeItems_posOK : ∀ (xs : List α) (l : List (islbh_node α)) (i : Nat),
    posOK i l → i + xs.length ≤ l.length → posOK (i + xs.length) (placeItems l i xs)
  | [], l, i, hp, hl => by simpa using hp
  | x :: xs, l, i, hp, hl => by
    rw [placeItems]
    have hiL : i < l.length := by
      simp only [List.length_cons] at hl
      omega
    have hp2 : posOK (i + 1) (l.set i ⟨x, i⟩) := by
      intro j hj
      rcases eq_or_ne j i with rfl | hne
      · rw [nodeAt_set_self hiL]
      · rw [nodeAt_set_ne (fun hh => hne hh.symm)]
        exact hp j (by omega)
    have hres := placeItems_posOK xs (l.set i ⟨x, i⟩) (i + 1) hp2
      (by simp only [List.length_set]; simp only [List.length_cons] at hl; omega)
    have harith : i + (x :: xs).length = i + 1 + xs.length := by
      simp only [List.length_cons]
      omega
    rw [harith]
    exact hres

theorem placeItems_activeItems : ∀ (xs : List α) (l : List (islbh_node α)) (i : Nat),
    i + xs.length ≤ l.length →
    activeItems (i + xs.length) (placeItems l i xs) = activeItems i l ++ xs
  | [], l, i, hl => by simp [placeItems]
  | x :: xs, l, i, hl => by
    rw [placeItems]
    have hiL : i < l.length := by
      simp only [List.length_cons] at hl
      omega
    have h1 := placeItems_activeItems xs (l.set i ⟨x, i⟩) (i + 1)
      (by simp only [List.length_set]; simp only [List.length_cons] at hl; omega)
    have harith : i + (x :: xs).length = i + 1 + xs.length := by
      simp only [List.length_cons]
      omega
    rw [harith, h1]
    have h2 : activeItems (i + 1) (l.set i ⟨x, i⟩) = activeItems i l ++ [x] := by
      rw [activeItems_succ (by simpa using hiL), nodeAt_set_self hiL]
      congr 1
      apply activeItems_eq_of_item (by simp; omega) (by omega)
      intro j hj
      rw [nodeAt_set_ne (by omega)]
    rw [h2]
    simp

/-- A successful batch enqueue (allocation succeeding, doubling loop
terminating) appends exactly the batch items and rebuilds a valid heap. -/
theorem batchenq_spec (hc : IsCmp cmp) (h : islbh_binary_heap α) (items : List α)
    (hv : Valid cmp h) (fuel A : Nat)
    (hdb : batchDoubling fuel h.nodes.length (h.length + items.length) = some A) :
    ∃ h' snaps, islbh_batchenq cmp true fuel h items = some (h', islbh_error.OK, snaps) ∧
      h'.length = h.length + items.length ∧
      Valid cmp h' ∧
      List.Perm (activeItems h'.length h'.nodes)
        (activeItems h.length h.nodes ++ items) := by
  obtain ⟨hvlen, hvpos, hvord⟩ := hv
  have hA := batchDoubling_some fuel hdb
  have hbase : ∃ base : List (islbh_node α),
      (if h.nodes.length < A then islbh__grow h A else h).nodes = base ∧
      h.length + items.length ≤ base.length ∧ posOK h.length base ∧
      activeItems h.length base = activeItems h.length h.nodes := by
    by_cases hgrow : h.nodes.length < A
    · refine ⟨(islbh__grow h A).nodes, by rw [if_pos hgrow], ?_, ?_, ?_⟩
      · rw [grow_length]
        omega
      · intro j hj
        rw [grow_nodeAt (by omega) (by omega)]
        exact hvpos j hj
      · apply activeItems_eq_of_item (by rw [grow_length]; omega) (by omega)
        intro j hj
        rw [grow_nodeAt (by omega) (by omega)]
    · exact ⟨h.nodes, by rw [if_neg hgrow], by omega, hvpos, rfl⟩
  obtain ⟨base, hbase_eq, hbase_len, hbase_pos, hbase_act⟩ := hbase
  have hpi_pos := placeItems_posOK items base h.length hbase_pos hbase_len
  have hpi_act := placeItems_activeItems items base h.length hbase_len
  have hpi_len : (placeItems base h.length items).length = base.length :=
    placeItems_length items base h.length
  have hfl := @floyd_algorithm_spec _ _ cmp hc (h.length + items.length)
    (placeItems base h.length items) (by omega) hpi_pos
  refine ⟨islbh_binary_heap.mk (h.length + items.length)
      (islbh__floyd_algorithm cmp (h.length + items.length) (placeItems base h.length items)),
    (List.range items.length).map
      (fun i => nodeAt (placeItems base h.length items) (h.length + i)), ?_, rfl,
    ⟨?_, hfl.2.1, hfl.2.2.1⟩, ?_⟩
  · rw [islbh_batchenq]
    simp only [hdb]
    rw [if_neg (by simp)]
    simp only [hbase_eq]
  · simp only
    rw [hfl.1, hpi_len]
    omega
  · simp only
    refine hfl.2.2.2.trans ?_
    rw [hpi_act, hbase_act]

end BatchSpec

section DrainSpec

variable {α : Type} [Inhabited α] {cmp : α → α → Int}

/-- Draining a valid heap yields its active items in an order that is
pairwise non-decreasing under the comparator. -/
theorem drain_spec (hc : IsCmp cmp) :
    ∀ (n : Nat) (h : islbh_binary_heap α), h.length = n → Valid cmp h →
      List.Pairwise (fun a b => cmp a b ≤ 0) (drain cmp h) ∧
      List.Perm (drain cmp h) (activeItems h.length h.nodes) := by
  intro n
  induction n with
  | zero =>
    intro h hn hv
    have hdrain : drain cmp h = [] := by
      rw [drain, hn]
      rfl
    rw [hdrain, hn, activeItems_zero]
    exact ⟨List.Pairwise.nil, List.Perm.refl _⟩
  | succ m IH =>
    intro h hn hv
    have h0 : 0 < h.length := by omega
    have hdq := dequeue_spec hc h hv h0
    have hpair : islbh_dequeue cmp h =
        ((islbh_dequeue cmp h).1, some (nodeAt h.nodes 0).item) := by
      rw [← hdq.2.1]
    have hdrain : drain cmp h =
        (nodeAt h.nodes 0).item :: drainFuel cmp m (islbh_dequeue cmp h).1 := by
      rw [drain, hn, drainFuel, hpair]
    have h1len : (islbh_dequeue cmp h).1.length = m := by
      rw [hdq.1]
      omega
    have hdf : drainFuel cmp m (islbh_dequeue cmp h).1 = drain cmp (islbh_dequeue cmp h).1 := by
      rw [drain, h1len]
    have hIH := IH (islbh_dequeue cmp h).1 h1len hdq.2.2.1
    have hmem : ∀ y, y ∈ drain cmp (islbh_dequeue cmp h).1 →
        cmp (nodeAt h.nodes 0).item y ≤ 0 := by
      intro y hy
      have hy2 : y ∈ activeItems (islbh_dequeue cmp h).1.length (islbh_dequeue cmp h).1.nodes :=
        hIH.2.mem_iff.mp hy
      have hy3 : y ∈ (nodeAt h.nodes 0).item ::
          activeItems (h.length - 1) (islbh_dequeue cmp h).1.nodes := by
        right
        rw [hdq.1] at hy2
        exact hy2
      have hy4 : y ∈ activeItems h.length h.nodes := hdq.2.2.2.2.mem_iff.mp hy3
      obtain ⟨j, hjlen, hjL, hjy⟩ := mem_activeItems hy4
      have := heapOrd_root_min hc hv.2.2 j hjlen
      rw [hjy] at this
      exact hc.le_flip.mp this
    rw [hdrain, hdf]
    constructor
    · exact List.Pairwise.cons hmem hIH.1
    · have hp1 : List.Perm ((nodeAt h.nodes 0).item :: drain cmp (islbh_dequeue cmp h).1)
          ((nodeAt h.nodes 0).item ::
            activeItems (h.length - 1) (islbh_dequeue cmp h).1.nodes) := by
        apply List.Perm.cons
        have := hIH.2
        rw [hdq.1] at this
        exact this
      exact hp1.trans hdq.2.2.2.2

/-- Sequential enqueues of a list of items preserve validity and append
exactly those items to the active contents. -/
theorem enqueueAll_spec (hc : IsCmp cmp) :
    ∀ (items : List α) (h : islbh_binary_heap α), Valid cmp h → 0 < h.nodes.length →
      Valid cmp (enqueueAll cmp h items) ∧
      (enqueueAll cmp h items).length = h.length + items.length ∧
      0 < (enqueueAll cmp h items).nodes.length ∧
      List.Perm (activeItems (enqueueAll cmp h items).length (enqueueAll cmp h items).nodes)
        (activeItems h.length h.nodes ++ items) := by
  intro items
  induction items with
  | nil =>
    intro h hv hcap
    exact ⟨hv, by simp [enqueueAll], hcap, by simp [enqueueAll]⟩
  | cons x xs IH =>
    intro h hv hcap
    have hstep : enqueueAll cmp h (x :: xs) =
        enqueueAll cmp (islbh_enqueue cmp true h x).1 xs := rfl
    have henq := enqueue_spec hc h x hv (Or.inl hcap)
    have hIH := IH (islbh_enqueue cmp true h x).1 henq.2.2.1 henq.2.2.2.2.1
    rw [hstep]
    refine ⟨hIH.1, ?_, hIH.2.2.1, ?_⟩
    · rw [hIH.2.1, henq.1]
      simp only [List.length_cons]
      omega
    · refine hIH.2.2.2.trans ?_
      have hperm : List.Perm
          (activeItems (islbh_enqueue cmp true h x).1.length (islbh_enqueue cmp true h x).1.nodes)
          (activeItems h.length h.nodes ++ [x]) := by
        have hp := henq.2.2.2.2.2
        rw [← henq.1] at hp
        exact hp
      have := hperm.append_right xs
      refine this.trans ?_
      rw [List.append_assoc]
      simp

end DrainSpec

section Claims

/-- C3: the claim states that an enqueue hitting `length == capacity`
requests `max(1, capacity * 2)`, so an enqueue onto a zero-capacity heap
still grows. The code requests `allocated * 2` with no `max`, so from
capacity `0` it requests `0`: after the enqueue the capacity is still `0`
(while `max 1 (0 * 2) = 1` would have been requested under the claim), and
the heap is left claiming one active slot inside a zero-slot allocation. -/
theorem C3_zero_capacity_enqueue_stalls :
    (islbh_create 0 : islbh_binary_heap Int).nodes.length = 0 ∧
    (islbh_enqueue (fun a b : Int => a - b) true (islbh_create 0) 7).1.nodes.length = 0 ∧
    (islbh_enqueue (fun a b : Int => a - b) true (islbh_create 0) 7).1.length = 1 ∧
    max 1 ((islbh_create 0 : islbh_binary_heap Int).nodes.length * 2) = 1 := by
  decide

/-- C4: the claim states that `peek` and `dequeue` on an empty heap both
return an explicit empty indicator without reading out of bounds. The
`dequeue` half holds, but `islbh_peek` reads `nodes[0]` unconditionally:
on a zero-length heap with one allocated slot it returns that slot's
uninitialized content (here `37`) as if it were an item, and on a
zero-capacity heap the read is outside the allocation (`none` in the
model). -/
theorem C4_peek_reads_uninitialized_slot :
    (islbh_binary_heap.mk 0 [⟨(37 : Int), 0⟩]).length = 0 ∧
    islbh_peek (islbh_binary_heap.mk 0 [⟨(37 : Int), 0⟩]) = some 37 ∧
    islbh_peek (islbh_create 0 : islbh_binary_heap Int) = none ∧
    islbh_dequeue (fun a b : Int => a - b) (islbh_binary_heap.mk 0 [⟨(37 : Int), 0⟩]) =
      (islbh_binary_heap.mk 0 [⟨(37 : Int), 0⟩], none) := by
  decide

/-- C5 counterexample: the claim states the conditional sift-down stops as
soon as the current slot outranks *or ties* the higher-priority child. The
all-tie comparator (a consistent total preorder) ties everywhere, so under
the claim the array would be left unchanged; the code swaps on the tie. -/
theorem C5_counterexample :
    IsCmp (fun _ _ : Bool => (0 : Int)) ∧
    islbh__siftdown (fun _ _ : Bool => (0 : Int)) 2 [⟨true, 0⟩, ⟨false, 1⟩] 0 ≠
      [⟨true, 0⟩, ⟨false, 1⟩] := by
  constructor
  · exact ⟨fun a b => by simp, fun a b c h1 h2 => by simp⟩
  · decide

/-- C5 amended: at every step the higher-priority child is picked (left
unless a right child exists and compares strictly ahead of left); the
descent stops only when the current slot *strictly* outranks that child;
when the child outranks **or ties** the current slot a swap occurs and the
descent continues. -/
theorem C5_siftdown_step {α : Type} [Inhabited α] (cmp : α → α → Int) (len : Nat)
    (l : List (islbh_node α)) (i : Nat) :
    (¬2 * i + 1 < len → islbh__siftdown cmp len l i = l) ∧
    (2 * i + 1 < len →
      higherChild cmp len l i =
        (if 2 * i + 2 < len ∧ cmp (nodeAt l (2 * i + 2)).item (nodeAt l (2 * i + 1)).item < 0
          then 2 * i + 2 else 2 * i + 1) ∧
      (cmp (nodeAt l i).item (nodeAt l (higherChild cmp len l i)).item < 0 →
        islbh__siftdown cmp len l i = l) ∧
      (0 ≤ cmp (nodeAt l i).item (nodeAt l (higherChild cmp len l i)).item →
        islbh__siftdown cmp len l i =
          islbh__siftdown cmp len (islbh__swap l i (higherChild cmp len l i))
            (higherChild cmp len l i))) := by
  constructor
  · intro hl
    rw [islbh__siftdown_eq, if_neg hl]
  · intro hl
    refine ⟨rfl, ?_, ?_⟩
    · intro hstop
      rw [islbh__siftdown_eq, if_pos hl, if_pos hstop]
    · intro hgo
      rw [islbh__siftdown_eq, if_pos hl, if_neg (by omega)]

/-- Witness for the amended C5 at a concrete tie: the step lemma applied to
the all-tie two-element array forces the swap-and-continue branch. -/
theorem C5_siftdown_step_witness :
    (0 : Int) ≤ (fun _ _ : Bool => (0 : Int)) (nodeAt [⟨true, 0⟩, ⟨false, 1⟩] 0).item
      (nodeAt [⟨true, 0⟩, ⟨false, 1⟩] (higherChild (fun _ _ : Bool => (0 : Int)) 2
        [⟨true, 0⟩, ⟨false, 1⟩] 0)).item ∧
    islbh__siftdown (fun _ _ : Bool => (0 : Int)) 2 [⟨true, 0⟩, ⟨false, 1⟩] 0 =
      islbh__siftdown (fun _ _ : Bool => (0 : Int)) 2
        (islbh__swap [⟨true, 0⟩, ⟨false, 1⟩] 0
          (higherChild (fun _ _ : Bool => (0 : Int)) 2 [⟨true, 0⟩, ⟨false, 1⟩] 0))
        (higherChild (fun _ _ : Bool => (0 : Int)) 2 [⟨true, 0⟩, ⟨false, 1⟩] 0) :=
  ⟨by decide,
    ((C5_siftdown_step (fun _ _ : Bool => (0 : Int)) 2 [⟨true, 0⟩, ⟨false, 1⟩] 0).2
      (by decide)).2.2 (by decide)⟩

/-- C8: `islbh_remove` returns `NULL_NODE` exactly on the NULL handle,
`NOT_EXIST` exactly when the recorded position is not active or the
pointer identity fails, and `OK` otherwise. -/
theorem C8_remove_error_taxonomy {α : Type} [Inhabited α] (cmp : α → α → Int)
    (h : islbh_binary_heap α) (node : Option (Nat × Bool)) :
    ((islbh_remove cmp h node).2 = islbh_error.NULL_NODE ↔ node = none) ∧
    ((islbh_remove cmp h node).2 = islbh_error.NOT_EXIST ↔
      ∃ pos live, node = some (pos, live) ∧ (h.length ≤ pos ∨ live = false)) ∧
    ((islbh_remove cmp h node).2 = islbh_error.OK ↔
      ∃ pos, node = some (pos, true) ∧ pos < h.length) := by
  match node with
  | none =>
    refine ⟨by simp [islbh_remove], ?_, ?_⟩
    · simp [islbh_remove]
    · simp [islbh_remove]
  | some (pos, live) =>
    by_cases hcond : h.length ≤ pos ∨ live = false
    · have hr : (islbh_remove cmp h (some (pos, live))).2 = islbh_error.NOT_EXIST := by
        rw [islbh_remove]
        simp only [if_pos hcond]
      refine ⟨?_, ?_, ?_⟩
      · rw [hr]
        exact iff_of_false (by intro hx; cases hx) (by intro hx; cases hx)
      · rw [hr]
        simp only [true_iff]
        exact ⟨pos, live, rfl, hcond⟩
      · rw [hr]
        refine iff_of_false (by intro hx; cases hx) ?_
        intro ⟨p2, hp2, hlt⟩
        have hpl : pos = p2 ∧ live = true := by simpa using hp2
        rcases hcond with hcond | hcond
        · omega
        · rw [hpl.2] at hcond
          cases hcond
    · have hr : (islbh_remove cmp h (some (pos, live))).2 = islbh_error.OK := by
        rw [islbh_remove]
        simp only [if_neg hcond]
      have hl : live = true := by
        rcases not_or.mp hcond with ⟨h1, h2⟩
        exact eq_true_of_ne_false (fun hf => h2 hf)
      refine ⟨?_, ?_, ?_⟩
      · rw [hr]
        exact iff_of_false (by intro hx; cases hx) (by intro hx; cases hx)
      · rw [hr]
        refine iff_of_false (by intro hx; cases hx) ?_
        intro ⟨p2, l2, hp2, hc2⟩
        have hpl : pos = p2 ∧ live = l2 := by simpa using hp2
        apply hcond
        rcases hc2 with hc2 | hc2
        · left
          omega
        · right
          rw [hpl.2]
          exact hc2
      · rw [hr]
        simp only [true_iff]
        subst hl
        exact ⟨pos, rfl, by omega⟩

/-- Witness for C8 on a one-element heap: NULL handle, stale out-of-range
handle, and a live in-range handle hit the three branches. -/
theorem C8_remove_error_taxonomy_witness :
    (islbh_remove (fun a b : Int => a - b) (islbh_binary_heap.mk 1 [⟨5, 0⟩]) none).2 =
      islbh_error.NULL_NODE ∧
    (islbh_remove (fun a b : Int => a - b) (islbh_binary_heap.mk 1 [⟨5, 0⟩])
      (some (3, true))).2 = islbh_error.NOT_EXIST ∧
    (islbh_remove (fun a b : Int => a - b) (islbh_binary_heap.mk 1 [⟨5, 0⟩])
      (some (0, true))).2 = islbh_error.OK := by
  have h1 := C8_remove_error_taxonomy (fun a b : Int => a - b)
    (islbh_binary_heap.mk 1 [⟨5, 0⟩]) none
  have h2 := C8_remove_error_taxonomy (fun a b : Int => a - b)
    (islbh_binary_heap.mk 1 [⟨5, 0⟩]) (some (3, true))
  have h3 := C8_remove_error_taxonomy (fun a b : Int => a - b)
    (islbh_binary_heap.mk 1 [⟨5, 0⟩]) (some (0, true))
  exact ⟨h1.1.mpr rfl, h2.2.1.mpr ⟨3, true, rfl, Or.inl (by decide)⟩,
    h3.2.2.mpr ⟨0, rfl, by decide⟩⟩

/-- C9: every error return leaves the heap exactly as it was: a grow
failure in `islbh_enqueue` returns the unchanged heap with no handle, a
grow failure in `islbh_batchenq` reports `BAD_ALLOC` with the unchanged
heap, and a rejected handle in `islbh_remove` returns the unchanged heap. -/
theorem C9_error_atomicity {α : Type} [Inhabited α] (cmp : α → α → Int) (growOk : Bool)
    (h : islbh_binary_heap α) (x : α) (items : List α) (fuel : Nat)
    (node : Option (Nat × Bool)) :
    ((islbh_enqueue cmp growOk h x).2 = none → (islbh_enqueue cmp growOk h x).1 = h) ∧
    (∀ h2 snaps, islbh_batchenq cmp growOk fuel h items =
      some (h2, islbh_error.BAD_ALLOC, snaps) → h2 = h) ∧
    (((islbh_remove cmp h node).2 = islbh_error.NULL_NODE ∨
      (islbh_remove cmp h node).2 = islbh_error.NOT_EXIST) →
      (islbh_remove cmp h node).1 = h) := by
  refine ⟨?_, ?_, ?_⟩
  · intro hnone
    rw [islbh_enqueue] at hnone ⊢
    by_cases hfull : h.nodes.length ≤ h.length
    · rw [if_pos hfull] at hnone ⊢
      cases growOk with
      | false => simp
      | true => simp at hnone
    · rw [if_neg hfull] at hnone
      simp at hnone
  · intro h2 snaps heq
    rw [islbh_batchenq] at heq
    cases hdb : batchDoubling fuel h.nodes.length (h.length + items.length) with
    | none =>
      rw [hdb] at heq
      simp at heq
    | some A =>
      rw [hdb] at heq
      simp only at heq
      by_cases hcond : h.nodes.length < A ∧ growOk = false
      · rw [if_pos hcond] at heq
        simp only [Option.some.injEq, Prod.mk.injEq] at heq
        exact heq.1.symm
      · rw [if_neg hcond] at heq
        simp only [Option.some.injEq, Prod.mk.injEq] at heq
        cases heq.2.1
  · intro herr
    match node with
    | none => rfl
    | some (pos, live) =>
      by_cases hcond : h.length ≤ pos ∨ live = false
      · rw [islbh_remove]
        simp only [if_pos hcond]
      · have hr : (islbh_remove cmp h (some (pos, live))).2 = islbh_error.OK := by
          rw [islbh_remove]
          simp only [if_neg hcond]
        rw [hr] at herr
        rcases herr with herr | herr <;> cases herr

/-- Witness for C9: a full one-slot heap whose growth is refused is
returned unchanged by enqueue, and removing through a NULL handle and a
stale handle also return it unchanged. -/
theorem C9_error_atomicity_witness :
    ((islbh_enqueue (fun a b : Int => a - b) false (islbh_binary_heap.mk 1 [⟨5, 0⟩]) 7).2 =
      none →
      (islbh_enqueue (fun a b : Int => a - b) false (islbh_binary_heap.mk 1 [⟨5, 0⟩]) 7).1 =
        islbh_binary_heap.mk 1 [⟨5, 0⟩]) ∧
    (islbh_enqueue (fun a b : Int => a - b) false (islbh_binary_heap.mk 1 [⟨5, 0⟩]) 7).1 =
      islbh_binary_heap.mk 1 [⟨5, 0⟩] ∧
    (islbh_remove (fun a b : Int => a - b) (islbh_binary_heap.mk 1 [⟨5, 0⟩]) (some (3, true))).1 =
      islbh_binary_heap.mk 1 [⟨5, 0⟩] := by
  have hmain := C9_error_atomicity (fun a b : Int => a - b) false
    (islbh_binary_heap.mk 1 [⟨5, 0⟩]) 7 [] 0 (some (3, true))
  exact ⟨hmain.1, hmain.1 (by decide), hmain.2.2 (by decide)⟩

/-- C6 counterexample: the claim asserts the extract-optimized sift-down
produces the same slot array as the conditional sift-down on *every* heap
state and index. On the position-correct but non-heap-ordered state
`[5, 10, 20, 0]` (with the usual integer comparator, a consistent total
preorder) the conditional sift-down stops immediately at the root while
the unconditional descent buries the root at a leaf and the final sift-up
cannot restore it, so the resulting arrays differ. -/
theorem C6_counterexample :
    IsCmp (fun a b : Int => a - b) ∧
    posOK 4 [⟨(5 : Int), 0⟩, ⟨10, 1⟩, ⟨20, 2⟩, ⟨0, 3⟩] ∧
    islbh__siftdown_floyd (fun a b : Int => a - b) 4
        [⟨(5 : Int), 0⟩, ⟨10, 1⟩, ⟨20, 2⟩, ⟨0, 3⟩] 0 ≠
      islbh__siftdown (fun a b : Int => a - b) 4
        [⟨(5 : Int), 0⟩, ⟨10, 1⟩, ⟨20, 2⟩, ⟨0, 3⟩] 0 := by
  refine ⟨⟨fun a b => ?_, fun a b c h1 h2 => ?_⟩, by decide, by decide⟩
  · show a - b < 0 ↔ 0 < b - a
    omega
  · have h1x : a - b ≤ 0 := h1
    have h2x : b - c ≤ 0 := h2
    show a - c ≤ 0
    omega

/-- C6 amended: the equivalence holds at index 0 — the only index at which
the source invokes `islbh__siftdown_floyd`, right after the root swap of a
dequeue — on a position-correct state whose heap order can fail only at
the edges from the root to its children: there the unconditional descent
followed by the sift-up produces exactly the array of the conditional
sift-down run to completion. -/
theorem C6_floyd_equals_siftdown {α : Type} [Inhabited α] (cmp : α → α → Int)
    (hc : IsCmp cmp) (len : Nat) (l : List (islbh_node α))
    (hlen : len ≤ l.length) (hpos : posOK len l)
    (hsub : ∀ j, 0 < j → j < len → parentIdx j ≠ 0 →
      0 ≤ cmp (nodeAt l j).item (nodeAt l (parentIdx j)).item) :
    islbh__siftdown_floyd cmp len l 0 = islbh__siftdown cmp len l 0 := by
  rcases Nat.eq_zero_or_pos len with rfl | hlen0
  · rw [islbh__siftdown_floyd_eq, if_neg (by omega), islbh__siftup_eq, if_neg (by simp),
      islbh__siftdown_eq, if_neg (by omega)]
  · exact floyd_eq_siftdown_aux hc len 0 l (by omega) hlen hlen0 hpos
      (fun j hj0 hjlen hjne hpjne => hsub j hj0 hjlen hpjne)
      (fun hz => absurd hz (by omega))
      (fun hz => absurd hz (by omega))

/-- Witness for the amended C6: a concrete post-root-swap state (root 5
over the heap-ordered tail 1, 2, 3) on which the theorem applies and both
sift-downs agree. -/
theorem C6_floyd_equals_siftdown_witness :
    IsCmp (fun a b : Fin 8 => (a : Int) - (b : Int)) ∧
    4 ≤ ([⟨5, 0⟩, ⟨1, 1⟩, ⟨2, 2⟩, ⟨3, 3⟩] : List (islbh_node (Fin 8))).length ∧
    posOK 4 ([⟨5, 0⟩, ⟨1, 1⟩, ⟨2, 2⟩, ⟨3, 3⟩] : List (islbh_node (Fin 8))) ∧
    islbh__siftdown_floyd (fun a b : Fin 8 => (a : Int) - (b : Int)) 4
        ([⟨5, 0⟩, ⟨1, 1⟩, ⟨2, 2⟩, ⟨3, 3⟩] : List (islbh_node (Fin 8))) 0 =
      islbh__siftdown (fun a b : Fin 8 => (a : Int) - (b : Int)) 4
        ([⟨5, 0⟩, ⟨1, 1⟩, ⟨2, 2⟩, ⟨3, 3⟩] : List (islbh_node (Fin 8))) 0 := by
  refine ⟨by decide, by decide, by decide, ?_⟩
  apply C6_floyd_equals_siftdown (fun a b : Fin 8 => (a : Int) - (b : Int)) (by decide) 4
    ([⟨5, 0⟩, ⟨1, 1⟩, ⟨2, 2⟩, ⟨3, 3⟩] : List (islbh_node (Fin 8))) (by decide) (by decide)
  intro j hj0 hjlen hpj
  have hj : j = 1 ∨ j = 2 ∨ j = 3 := by omega
  rcases hj with rfl | rfl | rfl
  · exact absurd (by decide) hpj
  · exact absurd (by decide) hpj
  · decide

/-- C2: each public operation — successful enqueue, dequeue (including on
an empty heap), update whenever its position is in range (vacuous on an
empty heap, which has no positions), remove with any handle, successful
batch enqueue — applied to any heap satisfying the invariants yields a
heap where every active slot records its own index and no active child
compares strictly ahead of its parent. -/
theorem C2_operations_preserve_invariants {α : Type} [Inhabited α] (cmp : α → α → Int)
    (hc : IsCmp cmp) (h : islbh_binary_heap α) (hv : Valid cmp h)
    (x : α) (pos : Nat) (node : Option (Nat × Bool)) (items : List α) (fuel : Nat)
    (hcap : 0 < h.nodes.length ∨ h.length < h.nodes.length) :
    heapInvariants cmp (islbh_enqueue cmp true h x).1 ∧
    heapInvariants cmp (islbh_dequeue cmp h).1 ∧
    (pos < h.length → heapInvariants cmp (islbh_update cmp h pos)) ∧
    heapInvariants cmp (islbh_remove cmp h node).1 ∧
    (∀ h2 e snaps, islbh_batchenq cmp true fuel h items = some (h2, e, snaps) →
      heapInvariants cmp h2) := by
  refine ⟨?_, ?_, ?_, ?_, ?_⟩
  · have hvr := (enqueue_spec hc h x hv hcap).2.2.1
    exact ⟨hvr.2.1, hvr.2.2⟩
  · rcases Nat.eq_zero_or_pos h.length with hz | hpos0
    · have hdz : islbh_dequeue cmp h = (h, none) := by
        rw [islbh_dequeue, if_pos hz]
      rw [hdz]
      exact ⟨hv.2.1, hv.2.2⟩
    · have hdq := dequeue_spec hc h hv hpos0
      exact ⟨hdq.2.2.1.2.1, hdq.2.2.1.2.2⟩
  · intro hplt
    have hup := update_spec hc h pos hv.1 hplt hv.2.1
      (fun j hj0 hjlen hjne hpjne => hv.2.2 j hj0 hjlen)
      (fun hz ch hchlen hchp => heapOrd_gp hc hv.2.2 hz ch hchlen hchp)
    exact ⟨hup.2.2.1.2.1, hup.2.2.1.2.2⟩
  · match node with
    | none => exact ⟨hv.2.1, hv.2.2⟩
    | some (p2, live) =>
      by_cases hcond : h.length ≤ p2 ∨ live = false
      · have hr : (islbh_remove cmp h (some (p2, live))).1 = h := by
          rw [islbh_remove]
          simp only [if_pos hcond]
        rw [hr]
        exact ⟨hv.2.1, hv.2.2⟩
      · have hl : live = true := by
          rcases not_or.mp hcond with ⟨h1, h2⟩
          exact eq_true_of_ne_false (fun hf => h2 hf)
        have hp2 : p2 < h.length := by
          rcases not_or.mp hcond with ⟨h1, h2⟩
          omega
        subst hl
        have hrm := remove_spec hc h p2 hv hp2
        exact ⟨hrm.2.2.2.1.2.1, hrm.2.2.2.1.2.2⟩
  · intro h2 e snaps heq
    rw [islbh_batchenq] at heq
    cases hdb : batchDoubling fuel h.nodes.length (h.length + items.length) with
    | none =>
      rw [hdb] at heq
      simp at heq
    | some A =>
      obtain ⟨h3, snaps3, hbeq, hlen3, hv3, hperm3⟩ := batchenq_spec hc h items hv fuel A hdb
      rw [islbh_batchenq] at hbeq
      rw [hdb] at heq hbeq
      rw [hbeq] at heq
      simp only [Option.some.injEq, Prod.mk.injEq] at heq
      rw [← heq.1]
      exact ⟨hv3.2.1, hv3.2.2⟩

/-- Witness for C2 at a concrete two-element valid heap, exercising all
five operations. -/
theorem C2_operations_preserve_invariants_witness :
    IsCmp (fun a b : Fin 8 => (a : Int) - (b : Int)) ∧
    Valid (fun a b : Fin 8 => (a : Int) - (b : Int))
      (islbh_binary_heap.mk 2 ([⟨1, 0⟩, ⟨3, 1⟩] : List (islbh_node (Fin 8)))) ∧
    (0 < (islbh_binary_heap.mk 2 ([⟨1, 0⟩, ⟨3, 1⟩] : List (islbh_node (Fin 8)))).nodes.length ∨
      (islbh_binary_heap.mk 2 ([⟨1, 0⟩, ⟨3, 1⟩] : List (islbh_node (Fin 8)))).length <
        (islbh_binary_heap.mk 2 ([⟨1, 0⟩, ⟨3, 1⟩] :
          List (islbh_node (Fin 8)))).nodes.length) ∧
    1 < (islbh_binary_heap.mk 2 ([⟨1, 0⟩, ⟨3, 1⟩] : List (islbh_node (Fin 8)))).length ∧
    (heapInvariants (fun a b : Fin 8 => (a : Int) - (b : Int))
      (islbh_enqueue (fun a b : Fin 8 => (a : Int) - (b : Int)) true
        (islbh_binary_heap.mk 2 ([⟨1, 0⟩, ⟨3, 1⟩] : List (islbh_node (Fin 8)))) 2).1 ∧
    heapInvariants (fun a b : Fin 8 => (a : Int) - (b : Int))
      (islbh_dequeue (fun a b : Fin 8 => (a : Int) - (b : Int))
        (islbh_binary_heap.mk 2 ([⟨1, 0⟩, ⟨3, 1⟩] : List (islbh_node (Fin 8))))).1 ∧
    heapInvariants (fun a b : Fin 8 => (a : Int) - (b : Int))
      (islbh_update (fun a b : Fin 8 => (a : Int) - (b : Int))
        (islbh_binary_heap.mk 2 ([⟨1, 0⟩, ⟨3, 1⟩] : List (islbh_node (Fin 8)))) 1) ∧
    heapInvariants (fun a b : Fin 8 => (a : Int) - (b : Int))
      (islbh_remove (fun a b : Fin 8 => (a : Int) - (b : Int))
        (islbh_binary_heap.mk 2 ([⟨1, 0⟩, ⟨3, 1⟩] : List (islbh_node (Fin 8))))
        (some (0, true))).1 ∧
    (∀ h2 e snaps, islbh_batchenq (fun a b : Fin 8 => (a : Int) - (b : Int)) true 10
        (islbh_binary_heap.mk 2 ([⟨1, 0⟩, ⟨3, 1⟩] : List (islbh_node (Fin 8))))
        [5, 4] = some (h2, e, snaps) →
      heapInvariants (fun a b : Fin 8 => (a : Int) - (b : Int)) h2)) := by
  refine ⟨by decide, by decide, by decide, by decide, ?_⟩
  have hmain := C2_operations_preserve_invariants (fun a b : Fin 8 => (a : Int) - (b : Int))
    (by decide) (islbh_binary_heap.mk 2 ([⟨1, 0⟩, ⟨3, 1⟩] : List (islbh_node (Fin 8))))
    (by decide) 2 1 (some (0, true)) [5, 4] 10 (by decide)
  exact ⟨hmain.1, hmain.2.1, hmain.2.2.1 (by decide), hmain.2.2.2.1, hmain.2.2.2.2⟩

/-- C1: for every comparator that is a consistent total preorder and every
sequence of enqueues into a freshly created heap (with a nonzero
preallocation, so the growth arithmetic of the source is well defined)
followed by repeated dequeues until empty, the dequeued sequence is
non-decreasing under the comparator. -/
theorem C1_dequeue_sequence_nondecreasing {α : Type} [Inhabited α] (cmp : α → α → Int)
    (hc : IsCmp cmp) (prealloc : Nat) (hp : 0 < prealloc) (items : List α) :
    List.Chain' (fun a b => cmp a b ≤ 0)
      (drain cmp (enqueueAll cmp (islbh_create prealloc) items)) := by
  have hstart : Valid cmp (islbh_create prealloc : islbh_binary_heap α) := by
    refine ⟨?_, ?_, ?_⟩
    · simp [islbh_create]
    · intro i hi
      simp [islbh_create] at hi
    · intro i hi0 hi
      simp [islbh_create] at hi
  have hcap : 0 < (islbh_create prealloc : islbh_binary_heap α).nodes.length := by
    simp [islbh_create]
    omega
  have henq := enqueueAll_spec hc items (islbh_create prealloc) hstart hcap
  have hdrain := drain_spec hc (enqueueAll cmp (islbh_create prealloc) items).length
    (enqueueAll cmp (islbh_create prealloc) items) rfl henq.1
  exact List.Pairwise.chain' hdrain.1

/-- Witness for C1: three items through a one-slot heap drain in
non-decreasing order. -/
theorem C1_dequeue_sequence_nondecreasing_witness :
    IsCmp (fun a b : Fin 8 => (a : Int) - (b : Int)) ∧ 0 < 1 ∧
    List.Chain' (fun a b => (fun a b : Fin 8 => (a : Int) - (b : Int)) a b ≤ 0)
      (drain (fun a b : Fin 8 => (a : Int) - (b : Int))
        (enqueueAll (fun a b : Fin 8 => (a : Int) - (b : Int)) (islbh_create 1) [3, 1, 2])) :=
  ⟨by decide, by decide,
    C1_dequeue_sequence_nondecreasing (fun a b : Fin 8 => (a : Int) - (b : Int))
      (by decide) 1 (by decide) [3, 1, 2]⟩

/-- C7: for every valid heap (with nonzero capacity, so both insertion
routes are well defined) and every batch of items, inserting them via one
successful `islbh_batchenq` and draining yields the same sorted sequence
of keys as inserting them via sequential `islbh_enqueue` calls and
draining. The comparator agrees with an integer key function, and the key
sequences are compared (tie order among equal keys may differ). -/
theorem C7_batch_matches_sequential {α : Type} [Inhabited α] (cmp : α → α → Int)
    (key : α → Int) (hc : IsCmp cmp) (hkey : ∀ a b, cmp a b ≤ 0 ↔ key a ≤ key b)
    (h : islbh_binary_heap α) (hv : Valid cmp h) (hcap : 0 < h.nodes.length)
    (items : List α) (fuel A : Nat)
    (hdb : batchDoubling fuel h.nodes.length (h.length + items.length) = some A) :
    (islbh_batchenq cmp true fuel h items).map (fun r => (drain cmp r.1).map key) =
      some ((drain cmp (enqueueAll cmp h items)).map key) := by
  obtain ⟨h2, snaps, hbeq, hlen2, hv2, hperm2⟩ := batchenq_spec hc h items hv fuel A hdb
  rw [hbeq]
  simp only [Option.map_some']
  congr 1
  have henq := enqueueAll_spec hc items h hv hcap
  have hd1 := drain_spec hc h2.length h2 rfl hv2
  have hd2 := drain_spec hc (enqueueAll cmp h items).length (enqueueAll cmp h items) rfl henq.1
  have hperm : List.Perm (drain cmp h2) (drain cmp (enqueueAll cmp h items)) := by
    refine (hd1.2.trans ?_).trans hd2.2.symm
    exact hperm2.trans henq.2.2.2.symm
  have hs1 : List.Sorted (fun a b : Int => a ≤ b) ((drain cmp h2).map key) :=
    List.Pairwise.map key (fun a b hab => (hkey a b).mp hab) hd1.1
  have hs2 : List.Sorted (fun a b : Int => a ≤ b)
      ((drain cmp (enqueueAll cmp h items)).map key) :=
    List.Pairwise.map key (fun a b hab => (hkey a b).mp hab) hd2.1
  exact List.eq_of_perm_of_sorted (hperm.map key) hs1 hs2

/-- Witness for C7: batching three items into a one-slot heap and
enqueueing them one at a time drain to the same key sequence. -/
theorem C7_batch_matches_sequential_witness :
    IsCmp (fun a b : Fin 8 => (a : Int) - (b : Int)) ∧
    (∀ a b : Fin 8, (fun a b : Fin 8 => (a : Int) - (b : Int)) a b ≤ 0 ↔
      ((a : Int) ≤ (b : Int))) ∧
    Valid (fun a b : Fin 8 => (a : Int) - (b : Int)) (islbh_create 1) ∧
    0 < (islbh_create 1 : islbh_binary_heap (Fin 8)).nodes.length ∧
    batchDoubling 10 (islbh_create 1 : islbh_binary_heap (Fin 8)).nodes.length
      ((islbh_create 1 : islbh_binary_heap (Fin 8)).length + ([3, 1, 2] : List (Fin 8)).length) = some 4 ∧
    (islbh_batchenq (fun a b : Fin 8 => (a : Int) - (b : Int)) true 10
        (islbh_create 1) [3, 1, 2]).map
      (fun r => (drain (fun a b : Fin 8 => (a : Int) - (b : Int)) r.1).map
        (fun a : Fin 8 => (a : Int))) =
      some ((drain (fun a b : Fin 8 => (a : Int) - (b : Int))
        (enqueueAll (fun a b : Fin 8 => (a : Int) - (b : Int)) (islbh_create 1)
          [3, 1, 2])).map (fun a : Fin 8 => (a : Int))) :=
  ⟨by decide, by decide, by decide, by decide, by decide,
    C7_batch_matches_sequential (fun a b : Fin 8 => (a : Int) - (b : Int))
      (fun a : Fin 8 => (a : Int)) (by decide) (by decide) (islbh_create 1) (by decide)
      (by decide) [3, 1, 2] 10 4 (by decide)⟩

end Claims

end IslBinaryHeap
